import Mathlib

set_option maxRecDepth 8192

/-!
Verification of the chapter-two-api meal-plan pipeline.

The development shallowly embeds the request/response schemas, the prompt
builder and the three `/analyze` route handlers of the repository
(`src/routes/plan.ts`, the structured-macros plan route variant, and
`src/routes/meal.ts`), together with the PII scrubbing utility
(`src/utils/privacy.ts`).  JSON values are modelled by an inductive type
with rational numbers standing for the JavaScript numbers that occur in
the claims (all of which are exactly representable); zod schema
validation is modelled by explicit parse functions translated clause by
clause from the schema definitions, and each Express handler becomes a
total function from the request body and the outcome of the external
completion call to a record describing the HTTP response it sends.
-/

/-- JSON values as received in a request body or produced by the
completion provider.  Numbers are rationals: every numeric literal
appearing in the claims is exactly representable. -/
inductive Json where
  | str (s : String)
  | num (q : ℚ)
  | bool (b : Bool)
  | null
  | arr (elems : List Json)
  | obj (fields : List (String × Json))

/-- Field lookup on a JSON object; `none` both for a missing key and for
a non-object, matching how a zod object schema sees such input. -/
def Json.lookup : Json → String → Option Json
  | .obj fs, k => fs.lookup k
  | _, _ => none

/-- Extract a JSON number (zod `z.number()`): anything else fails. -/
def Json.asNum : Option Json → Option ℚ
  | some (.num q) => some q
  | _ => none

/-- Extract a JSON string (zod `z.string()`): anything else fails. -/
def Json.asStr : Option Json → Option String
  | some (.str s) => some s
  | _ => none

/-- JavaScript `String.prototype.trim`: drop whitespace from both ends
of the string (computed on the character list so that it reduces). -/
def jsTrim (s : String) : String :=
  ⟨((s.data.dropWhile Char.isWhitespace).reverse.dropWhile Char.isWhitespace).reverse⟩

/-- A zod validation issue: a path into the object and a message.
`flatten()` only ever looks at the path head and the message. -/
structure Issue where
  path : List String
  message : String
deriving DecidableEq

/-- The result of `ZodError.flatten()`: root-level messages in
`formErrors`, messages of issues with a non-empty path grouped by the
path head in `fieldErrors`. -/
structure Flattened where
  formErrors : List String
  fieldErrors : List (String × List String)
deriving DecidableEq

/-- Append a message under a field key, preserving first-seen key order,
as `flatten()` builds its `fieldErrors` object. -/
def addFieldError (acc : List (String × List String)) (k m : String) :
    List (String × List String) :=
  match acc with
  | [] => [(k, [m])]
  | (k₀, ms) :: rest =>
      if k₀ = k then (k₀, ms ++ [m]) :: rest
      else (k₀, ms) :: addFieldError rest k m

/-- `ZodError.flatten()`: issues with an empty path go to `formErrors`,
the rest are grouped under their path head. -/
def flattenIssues (issues : List Issue) : Flattened :=
  issues.foldl
    (fun acc i =>
      match i.path with
      | [] => { acc with formErrors := acc.formErrors ++ [i.message] }
      | k :: _ => { acc with fieldErrors := addFieldError acc.fieldErrors k i.message })
    ⟨[], []⟩

/-- zod's name for the runtime type of a JSON value, as used in its
`Expected ..., received ...` messages. -/
def Json.typeName : Json → String
  | .str _ => "string"
  | .num _ => "number"
  | .bool _ => "boolean"
  | .null => "null"
  | .arr _ => "array"
  | .obj _ => "object"

namespace StrictSchema

/-!  The response schema shared (textually identical) by
`src/routes/plan.ts` and the structured-macros plan route variant:
`macroTotalsSchema` and `mealPlanResponseSchema` with `.length(4)` on
`meals`.  -/

/-- `macroTotalsSchema`: four numbers, each `min(0)`. -/
structure MacroTotals where
  calories : ℚ
  protein : ℚ
  carbs : ℚ
  fat : ℚ
deriving DecidableEq

/-- The `mealType` enum `['breakfast', 'lunch', 'dinner', 'snack']`. -/
inductive MealType where
  | breakfast
  | lunch
  | dinner
  | snack
deriving DecidableEq

/-- One element of the `meals` array. -/
structure Meal where
  name : String
  mealType : MealType
  description : String
  portionGuidance : String
  estimatedMacros : MacroTotals
  swapOptions : List String
deriving DecidableEq

/-- The `assumptions` object: `mealsPerDay` is `int().min(1).max(8)`. -/
structure Assumptions where
  mealsPerDay : Int
  notes : String
deriving DecidableEq

/-- The full `mealPlanResponseSchema` output type. -/
structure MealPlanResponse where
  assumptions : Assumptions
  dailyTargets : MacroTotals
  meals : List Meal
  notes : String
deriving DecidableEq

/-- Parse of `macroTotalsSchema` (`z.number().min(0)` four times). -/
def parseMacroTotals (j : Json) : Option MacroTotals :=
  match Json.asNum (j.lookup "calories"), Json.asNum (j.lookup "protein"),
      Json.asNum (j.lookup "carbs"), Json.asNum (j.lookup "fat") with
  | some c, some p, some cb, some f =>
      if 0 ≤ c ∧ 0 ≤ p ∧ 0 ≤ cb ∧ 0 ≤ f then some ⟨c, p, cb, f⟩ else none
  | _, _, _, _ => none

/-- Parse of the `mealType` enum. -/
def parseMealType : Option Json → Option MealType
  | some (.str "breakfast") => some .breakfast
  | some (.str "lunch") => some .lunch
  | some (.str "dinner") => some .dinner
  | some (.str "snack") => some .snack
  | _ => none

/-- Parse of an array of strings each capped at `max` characters. -/
def parseStringList (cap : Nat) : List Json → Option (List String)
  | [] => some []
  | .str s :: rest =>
      if s.length ≤ cap then
        match parseStringList cap rest with
        | some tail => some (s :: tail)
        | none => none
      else none
  | _ => none

/-- Parse of one element of the `meals` array.  `swapOptions` is
`z.array(z.string().max(80)).max(2).default([])`: an absent key yields
the default empty array, a present key must be an array of at most two
strings of at most 80 characters. -/
def parseSwapOptions (o : Option Json) : Option (List String) :=
  match o with
  | none => some []
  | some (.arr xs) =>
      match parseStringList 80 xs with
      | some ss => if ss.length ≤ 2 then some ss else none
      | none => none
  | some _ => none

/-- Parse of one element of the `meals` array (see `parseSwapOptions`
for the `swapOptions` field). -/
def parseMeal (j : Json) : Option Meal :=
  match Json.asStr (j.lookup "name"), parseMealType (j.lookup "mealType"),
      Json.asStr (j.lookup "description"), Json.asStr (j.lookup "portionGuidance") with
  | some name, some mt, some desc, some pg =>
      if name.length ≤ 60 ∧ desc.length ≤ 120 ∧ pg.length ≤ 160 then
        match j.lookup "estimatedMacros" with
        | some mj =>
            match parseMacroTotals mj, parseSwapOptions (j.lookup "swapOptions") with
            | some em, some swaps => some ⟨name, mt, desc, pg, em, swaps⟩
            | _, _ => none
        | none => none
      else none
  | _, _, _, _ => none

/-- Parse of the `meals` elements, in order. -/
def parseMeals : List Json → Option (List Meal)
  | [] => some []
  | j :: rest =>
      match parseMeal j, parseMeals rest with
      | some m, some tail => some (m :: tail)
      | _, _ => none

/-- Parse of the `assumptions` object. -/
def parseAssumptions (j : Json) : Option Assumptions :=
  match Json.asNum (j.lookup "mealsPerDay"), Json.asStr (j.lookup "notes") with
  | some mpd, some notes =>
      if mpd.den = 1 ∧ 1 ≤ mpd ∧ mpd ≤ 8 ∧ notes.length ≤ 200 then
        some ⟨mpd.num, notes⟩
      else none
  | _, _ => none

/-- Parse of `mealPlanResponseSchema`: the shape the completion provider
must return; `meals` must have length exactly 4. -/
def parseMealPlanResponse (j : Json) : Option MealPlanResponse :=
  match j.lookup "assumptions", j.lookup "dailyTargets", j.lookup "meals",
      Json.asStr (j.lookup "notes") with
  | some aj, some dj, some (.arr xs), some notes =>
      match parseAssumptions aj, parseMacroTotals dj, parseMeals xs with
      | some assum, some dt, some meals =>
          if meals.length = 4 ∧ notes.length ≤ 200 then
            some ⟨assum, dt, meals, notes⟩
          else none
      | _, _, _ => none
  | _, _, _, _ => none

end StrictSchema

/-- What the handler observes of the awaited completion call: either the
call resolved (carrying the provider's raw structured output, `none`
when there was no parsable output), or it threw. -/
inductive CompletionOutcome where
  | ok (raw : Option Json)
  | threw

/-- The `output_parsed` value the route code reads off a resolved
completion: the provider's raw output validated against the strict
response schema, `null` when absent or non-conforming. -/
def outputParsed (raw : Option Json) : Option StrictSchema.MealPlanResponse :=
  raw.bind StrictSchema.parseMealPlanResponse

namespace PlanRoute

/-!  `src/routes/plan.ts`: the free-text plan route. -/

/-- `mealPlanRequestSchema` of `plan.ts`: an object whose `planText` is
a string, transformed by `trim`, refined to trimmed length ≥ 5 with the
message shown to the caller.  Returns the parsed (trimmed) `planText`
or the zod issues. -/
def parseRequest (j : Json) : Except (List Issue) String :=
  match j with
  | .obj _ =>
      match j.lookup "planText" with
      | some (.str s) =>
          if 5 ≤ (jsTrim s).length then .ok (jsTrim s)
          else .error [⟨["planText"], "Please enter your macros and any restrictions."⟩]
      | some v => .error [⟨["planText"], "Expected string, received " ++ v.typeName⟩]
      | none => .error [⟨["planText"], "Required"⟩]
  | _ => .error [⟨[], "Expected object, received " ++ j.typeName⟩]

/-- The HTTP response the `plan.ts` handler sends, together with whether
the completion call was issued at all. -/
structure Result where
  status : Nat
  xRequestIdSet : Bool
  bodyError : Option String
  bodyRequestId : Option String
  bodyDetails : Option Flattened
  bodyPlan : Option StrictSchema.MealPlanResponse
  completionCalled : Bool
deriving DecidableEq

/-- The `planRouter.post('/analyze')` handler of `plan.ts`.  `requestId`
stands for the generated `crypto.randomUUID()` value; `outcome` for what
the awaited `openai.responses.parse` call does.  Note the 400 branch
returns before `x-request-id` is ever set, while the 502, 200 and 500
branches set the header first. -/
def handler (requestId : String) (body : Json) (outcome : CompletionOutcome) : Result :=
  match parseRequest body with
  | .error issues =>
      { status := 400, xRequestIdSet := false
        bodyError := some "Invalid request body"
        bodyRequestId := some requestId
        bodyDetails := some (flattenIssues issues)
        bodyPlan := none, completionCalled := false }
  | .ok _ =>
      match outcome with
      | .threw =>
          { status := 500, xRequestIdSet := true
            bodyError := some "Failed to generate meal plan at this time."
            bodyRequestId := some requestId
            bodyDetails := none, bodyPlan := none, completionCalled := true }
      | .ok raw =>
          match outputParsed raw with
          | none =>
              { status := 502, xRequestIdSet := true
                bodyError := some "AI returned an unexpected format. Please try again."
                bodyRequestId := some requestId
                bodyDetails := none, bodyPlan := none, completionCalled := true }
          | some plan =>
              { status := 200, xRequestIdSet := true
                bodyError := none, bodyRequestId := none
                bodyDetails := none, bodyPlan := some plan, completionCalled := true }

end PlanRoute

namespace PlanMacrosRoute

/-!  The structured-macros plan route variant: the union request schema
`z.union([mealPlanTextRequestSchema, mealPlanMacrosRequestSchema])`, the
prompt builder `buildPromptFromRequest`, and its `/analyze` handler.
The response schema is textually identical to `StrictSchema`. -/

/-- The parsed union request: either the legacy free-form text (already
trimmed by the schema transform) or the structured macro targets with
the optional `details` transformed to a trimmed string (absent becomes
the empty string). -/
inductive MealPlanRequest where
  | text (planText : String)
  | macros (calories protein carbs fats : Nat) (details : String)
deriving DecidableEq

/-- One macro field of `mealPlanMacrosRequestSchema`:
`z.number().int().min(0)`. -/
def parseMacroField (j : Json) (field : String) : Except (List Issue) Nat :=
  match Json.asNum (j.lookup field) with
  | some q =>
      if q.den = 1 then
        if 0 ≤ q then .ok q.num.toNat
        else .error [⟨["macros", field], "Number must be greater than or equal to 0"⟩]
      else .error [⟨["macros", field], "Expected integer, received float"⟩]
  | none =>
      match j.lookup field with
      | some v => .error [⟨["macros", field], "Expected number, received " ++ v.typeName⟩]
      | none => .error [⟨["macros", field], "Required"⟩]

/-- `mealPlanTextRequestSchema` (the first union option): same shape as
the `plan.ts` request schema. -/
def parseTextOption (j : Json) : Except (List Issue) MealPlanRequest :=
  (PlanRoute.parseRequest j).map .text

/-- `mealPlanMacrosRequestSchema` (the second union option): a `macros`
object with four non-negative integer fields and an optional `details`
string transformed to its trim (absent becomes the empty string). -/
def parseMacrosOption (j : Json) : Except (List Issue) MealPlanRequest :=
  match j with
  | .obj _ =>
      match j.lookup "macros" with
      | some mj =>
          match mj with
          | .obj _ =>
              match parseMacroField mj "calories", parseMacroField mj "protein",
                  parseMacroField mj "carbs", parseMacroField mj "fats" with
              | .ok c, .ok p, .ok cb, .ok f =>
                  match j.lookup "details" with
                  | none => .ok (.macros c p cb f "")
                  | some (.str s) => .ok (.macros c p cb f (jsTrim s))
                  | some v =>
                      .error [⟨["details"], "Expected string, received " ++ v.typeName⟩]
              | .error e, _, _, _ => .error e
              | _, .error e, _, _ => .error e
              | _, _, .error e, _ => .error e
              | _, _, _, .error e => .error e
          | _ => .error [⟨["macros"], "Expected object, received " ++ mj.typeName⟩]
      | none => .error [⟨["macros"], "Required"⟩]
  | _ => .error [⟨[], "Expected object, received " ++ j.typeName⟩]

/-- `mealPlanRequestSchema = z.union([text, macros])`: the options are
tried in order; when every option fails, zod reports a single
`invalid_union` issue at the root whose message is `Invalid input` (the
per-option errors live only in its `unionErrors`, which `flatten()`
never surfaces). -/
def parseRequest (j : Json) : Except (List Issue) MealPlanRequest :=
  match parseTextOption j with
  | .ok r => .ok r
  | .error _ =>
      match parseMacrosOption j with
      | .ok r => .ok r
      | .error _ => .error [⟨[], "Invalid input"⟩]

/-- `buildPromptFromRequest`: the structured variant joins a fixed list
of lines with newlines, re-trimming `details` and substituting the
literal `Details: none` when it is empty; the free-text variant returns
`planText` as is. -/
def buildPromptFromRequest : MealPlanRequest → String
  | .macros c p cb f d =>
      let r := jsTrim d
      let detailsLine := if r = "" then "Details: none" else "Details: " ++ r
      "Daily targets:" ++ "\n"
        ++ "- Calories: " ++ toString c ++ "\n"
        ++ "- Protein: " ++ toString p ++ "g" ++ "\n"
        ++ "- Carbs: " ++ toString cb ++ "g" ++ "\n"
        ++ "- Fat: " ++ toString f ++ "g" ++ "\n"
        ++ detailsLine
  | .text t => t

/-- The `/analyze` handler of the structured-macros variant: identical
control flow to the `plan.ts` handler (400 without the `x-request-id`
header, 502 on a null `output_parsed`, 500 on a throw), but the user
prompt is built through `buildPromptFromRequest`. -/
def handler (requestId : String) (body : Json) (outcome : CompletionOutcome) :
    PlanRoute.Result :=
  match parseRequest body with
  | .error issues =>
      { status := 400, xRequestIdSet := false
        bodyError := some "Invalid request body"
        bodyRequestId := some requestId
        bodyDetails := some (flattenIssues issues)
        bodyPlan := none, completionCalled := false }
  | .ok _ =>
      match outcome with
      | .threw =>
          { status := 500, xRequestIdSet := true
            bodyError := some "Failed to generate meal plan at this time."
            bodyRequestId := some requestId
            bodyDetails := none, bodyPlan := none, completionCalled := true }
      | .ok raw =>
          match outputParsed raw with
          | none =>
              { status := 502, xRequestIdSet := true
                bodyError := some "AI returned an unexpected format. Please try again."
                bodyRequestId := some requestId
                bodyDetails := none, bodyPlan := none, completionCalled := true }
          | some plan =>
              { status := 200, xRequestIdSet := true
                bodyError := none, bodyRequestId := none
                bodyDetails := none, bodyPlan := some plan, completionCalled := true }

end PlanMacrosRoute

namespace MealRoute

/-!  `src/routes/meal.ts`: the legacy route.  Its request schema is
`{ storyText: z.string().min(20) }`; its response schema has no length
caps, no meal-count constraint and an uncapped `swapOptions` default;
and its handler never generates a request id, never sets a response
header, and relays `response.output_parsed` with `res.json(parsed)`
without checking it for `null`. -/

/-- Uncapped `macroTotals`-shaped object of the `meal.ts` response
schema (plain `z.number()` fields). -/
structure LooseMacros where
  calories : ℚ
  protein : ℚ
  carbs : ℚ
  fat : ℚ
deriving DecidableEq

/-- One element of the `meals` array in the `meal.ts` response schema. -/
structure LooseMeal where
  name : String
  mealType : StrictSchema.MealType
  description : String
  portionGuidance : String
  estimatedMacros : LooseMacros
  swapOptions : List String
deriving DecidableEq

/-- The `meal.ts` response type. -/
structure LooseResponse where
  mealsPerDay : ℚ
  assumptionNotes : String
  dailyTargets : LooseMacros
  meals : List LooseMeal
  notes : String
deriving DecidableEq

/-- Parse of the plain four-number object. -/
def parseLooseMacros (j : Json) : Option LooseMacros := do
  let c ← Json.asNum (j.lookup "calories")
  let p ← Json.asNum (j.lookup "protein")
  let cb ← Json.asNum (j.lookup "carbs")
  let f ← Json.asNum (j.lookup "fat")
  pure ⟨c, p, cb, f⟩

/-- Parse of an array of plain strings. -/
def parseStrings : List Json → Option (List String)
  | [] => some []
  | .str s :: rest => do
      let tail ← parseStrings rest
      pure (s :: tail)
  | _ => none

/-- Parse of one `meals` element: plain strings, the `mealType` enum,
and `swapOptions: z.array(z.string()).default([])`. -/
def parseLooseMeal (j : Json) : Option LooseMeal := do
  let name ← Json.asStr (j.lookup "name")
  let mt ← StrictSchema.parseMealType (j.lookup "mealType")
  let desc ← Json.asStr (j.lookup "description")
  let pg ← Json.asStr (j.lookup "portionGuidance")
  let em ← match j.lookup "estimatedMacros" with
    | some mj => parseLooseMacros mj
    | none => none
  let swaps ← match j.lookup "swapOptions" with
    | none => some []
    | some (.arr xs) => parseStrings xs
    | some _ => none
  pure ⟨name, mt, desc, pg, em, swaps⟩

/-- Parse of the `meals` array (any length). -/
def parseLooseMeals : List Json → Option (List LooseMeal)
  | [] => some []
  | j :: rest => do
      let m ← parseLooseMeal j
      let tail ← parseLooseMeals rest
      pure (m :: tail)

/-- Parse of the `meal.ts` response schema. -/
def parseLooseResponse (j : Json) : Option LooseResponse := do
  let assum ← match j.lookup "assumptions" with
    | some aj => do
        let mpd ← Json.asNum (aj.lookup "mealsPerDay")
        let notes ← Json.asStr (aj.lookup "notes")
        pure (mpd, notes)
    | none => none
  let dt ← match j.lookup "dailyTargets" with
    | some dj => parseLooseMacros dj
    | none => none
  let meals ← match j.lookup "meals" with
    | some (.arr xs) => parseLooseMeals xs
    | _ => none
  let notes ← Json.asStr (j.lookup "notes")
  pure ⟨assum.1, assum.2, dt, meals, notes⟩

/-- `mealPlanRequestSchema` of `meal.ts`: `storyText` must be a string
of length at least 20 (no trimming). -/
def parseRequest (j : Json) : Option String :=
  match j.lookup "storyText" with
  | some (.str s) => if 20 ≤ s.length then some s else none
  | _ => none

/-- The HTTP response the `meal.ts` handler sends.  `bodyIsNull` records
the `res.json(parsed)` call made with a `null` value. -/
structure Result where
  status : Nat
  xRequestIdSet : Bool
  bodyError : Option String
  bodyRequestId : Option String
  bodyIsNull : Bool
  bodyPlan : Option LooseResponse
  completionCalled : Bool
deriving DecidableEq

/-- The `mealRouter.post('/analyze')` handler.  There is no null check
on `output_parsed`: a resolved completion is always relayed with the
implicit 200 status, even when the parsed output is `null`. -/
def handler (body : Json) (outcome : CompletionOutcome) : Result :=
  match parseRequest body with
  | none =>
      { status := 400, xRequestIdSet := false
        bodyError := some "Invalid request body"
        bodyRequestId := none, bodyIsNull := false
        bodyPlan := none, completionCalled := false }
  | some _ =>
      match outcome with
      | .threw =>
          { status := 500, xRequestIdSet := false
            bodyError := some "Failed to generate meal plan at this time."
            bodyRequestId := none, bodyIsNull := false
            bodyPlan := none, completionCalled := true }
      | .ok raw =>
          match raw.bind parseLooseResponse with
          | none =>
              { status := 200, xRequestIdSet := false
                bodyError := none, bodyRequestId := none, bodyIsNull := true
                bodyPlan := none, completionCalled := true }
          | some parsed =>
              { status := 200, xRequestIdSet := false
                bodyError := none, bodyRequestId := none, bodyIsNull := false
                bodyPlan := some parsed, completionCalled := true }

end MealRoute

namespace Privacy

/-!  `src/utils/privacy.ts`: `scrubPlanText` applies two global regex
replacements to its input, in order:

* `/\b[A-Z0-9._%+-]+@[A-Z0-9.-]+\.[A-Z]{2,}\b/gi` replaced by `[EMAIL]`;
* `/\b(?:\+1[-.\s]?)?(?:\(?\d{3}\)?[-.\s]?)?\d{3}[-.\s]?\d{4}\b/g`
  replaced by `[PHONE]`.

The two patterns are embedded as explicit matchers on character lists
that follow the JavaScript engine semantics: a matcher receives the
wordness of the preceding character (for `\b`) and the remaining
characters, and returns the length of the leftmost match anchored at
that position, chosen in the engine's greedy backtracking order.  The
global replacement is a left-to-right scan over the original string
that advances past each match (as `String.prototype.replace` with the
`g` flag does).  -/

/-- JavaScript `\w`: `[A-Za-z0-9_]` (the patterns are ASCII-only). -/
def isWordChar (c : Char) : Bool := c.isAlpha || c.isDigit || c = '_'

/-- The separator class `[-.\s]` of the phone pattern. -/
def isSepChar (c : Char) : Bool := c = '-' || c = '.' || c.isWhitespace

/-- The email local-part class `[A-Z0-9._%+-]` under the `i` flag. -/
def isLocalChar (c : Char) : Bool :=
  c.isAlpha || c.isDigit || c = '.' || c = '_' || c = '%' || c = '+' || c = '-'

/-- The email domain class `[A-Z0-9.-]` under the `i` flag. -/
def isDomainChar (c : Char) : Bool := c.isAlpha || c.isDigit || c = '.' || c = '-'

/-- Wordness of the character at the current position (`false` at the
end of the string), as `\b` sees it. -/
def wordAt : List Char → Bool
  | [] => false
  | c :: _ => isWordChar c

/-- The wordness `\b` sees on the left of the position after `l`, when
the character before `l` has wordness `w`. -/
def lastWordness (w : Bool) (l : List Char) : Bool :=
  match l.getLast? with
  | some c => isWordChar c
  | none => w

/-- The email matcher.  At a position with preceding wordness `wprev`:
`\b` must hold; `[A-Z0-9._%+-]+` greedily takes the maximal local run
(shorter runs leave a local character where `@` is required, so the
maximal run is the only candidate); `@` must follow; then
`[A-Z0-9.-]+\.[A-Z]{2,}\b` backtracks the greedy domain prefix, i.e.
tries the `\.` at each dot position `k` of the maximal domain run from
the largest down, with the `[A-Z]{2,}` part greedily taking the maximal
letter run (any shorter run ends before a letter and fails the final
`\b`, so only the maximal run is a candidate). -/
def emailMatch (wprev : Bool) (cs : List Char) : Option Nat :=
  if wprev = wordAt cs then none
  else
    match (cs.takeWhile isLocalChar).length with
    | 0 => none
    | ll =>
        match (cs.drop ll).head? with
        | some '@' =>
            let rest := cs.drop (ll + 1)
            let dl := (rest.takeWhile isDomainChar).length
            ((List.range dl).reverse).findSome? (fun k =>
              if 1 ≤ k ∧ rest[k]? = some '.' then
                match ((rest.drop (k + 1)).takeWhile Char.isAlpha).length with
                | 0 => none
                | 1 => none
                | tl =>
                    if wordAt (rest.drop (k + 1 + tl)) = false then
                      some (ll + 1 + k + 1 + tl)
                    else none
              else none)
        | _ => none

/-- Whether the next `m` characters are all digits (`\d{m}`). -/
def digitRun (cs : List Char) (m : Nat) : Bool :=
  ((cs.take m).length = m) && (cs.take m).all (·.isDigit)

/-- Consumption candidates of `[-.\s]?`, greedy order. -/
def sepOpts (cs : List Char) : List Nat :=
  match cs with
  | c :: _ => if isSepChar c then [1, 0] else [0]
  | [] => [0]

/-- Consumption candidates of `(?:\+1[-.\s]?)?`, greedy order. -/
def plusOpts (cs : List Char) : List Nat :=
  match cs with
  | c0 :: c1 :: rest =>
      if c0 = '+' ∧ c1 = '1' then ((sepOpts rest).map (fun sp => 2 + sp)) ++ [0]
      else [0]
  | _ => [0]

/-- Consumption candidates of `\(?`, greedy order. -/
def openOpts (cs : List Char) : List Nat :=
  match cs with
  | c :: _ => if c = '(' then [1, 0] else [0]
  | [] => [0]

/-- Consumption candidates of `\)?`, greedy order. -/
def closeOpts (cs : List Char) : List Nat :=
  match cs with
  | c :: _ => if c = ')' then [1, 0] else [0]
  | [] => [0]

/-- Consumption candidates of `(?:\(?\d{3}\)?[-.\s]?)?`, greedy
order: every way of taking the group (optional paren, three digits,
optional paren, optional separator) precedes skipping it. -/
def areaOpts (cs : List Char) : List Nat :=
  ((openOpts cs).flatMap (fun o =>
    if digitRun (cs.drop o) 3 then
      (closeOpts (cs.drop (o + 3))).flatMap (fun cl =>
        (sepOpts (cs.drop (o + 3 + cl))).map (fun sp => o + 3 + cl + sp))
    else [])) ++ [0]

/-- Consumption candidates of `\d{3}[-.\s]?\d{4}`, greedy order. -/
def coreOpts (cs : List Char) : List Nat :=
  if digitRun cs 3 then
    (sepOpts (cs.drop 3)).filterMap (fun sp =>
      if digitRun (cs.drop (3 + sp)) 4 then some (3 + sp + 4) else none)
  else []

/-- The phone matcher: `\b`, then the first combination of the three
parts (in the engine's backtracking order) whose end satisfies the
final `\b`. -/
def phoneMatch (wprev : Bool) (cs : List Char) : Option Nat :=
  if wprev = wordAt cs then none
  else
    (plusOpts cs).findSome? (fun a =>
      (areaOpts (cs.drop a)).findSome? (fun b =>
        (coreOpts (cs.drop (a + b))).findSome? (fun c =>
          if wordAt (cs.drop (a + b + c)) = false then some (a + b + c)
          else none)))

/-- One step of the global-replace scan: a kept character or a replaced
match (carrying the matched original characters). -/
inductive Piece where
  | keep (c : Char)
  | repl (orig : List Char)

/-- Reassemble the scan output, substituting `tok` for each match. -/
def render (tok : List Char) : List Piece → List Char
  | [] => []
  | .keep c :: ps => c :: render tok ps
  | .repl _ :: ps => tok ++ render tok ps

/-- The left-to-right scan of a global regex replacement over the
original string: at each position attempt the matcher (with the
wordness of the preceding original character); on a match emit a
replacement piece and continue after it, otherwise keep one character.
The fuel argument (instantiated with the string length) only serves
termination: every step consumes at least one character or one unit of
fuel. -/
def scanFuel (M : Bool → List Char → Option Nat) :
    Nat → Bool → List Char → List Piece
  | 0, _, _ => []
  | _ + 1, _, [] => []
  | fuel + 1, w, c :: rest =>
      match M w (c :: rest) with
      | some n =>
          .repl ((c :: rest).take n) ::
            scanFuel M fuel (lastWordness w ((c :: rest).take n)) ((c :: rest).drop n)
      | none => .keep c :: scanFuel M fuel (isWordChar c) rest

/-- The `[EMAIL]` replacement token. -/
def emailTok : List Char := "[EMAIL]".data

/-- The `[PHONE]` replacement token. -/
def phoneTok : List Char := "[PHONE]".data

/-- The first replacement of `scrubPlanText`. -/
def emailPass (cs : List Char) : List Char :=
  render emailTok (scanFuel emailMatch cs.length false cs)

/-- The second replacement of `scrubPlanText`. -/
def phonePass (cs : List Char) : List Char :=
  render phoneTok (scanFuel phoneMatch cs.length false cs)

/-- `scrubPlanText`: replace emails by `[EMAIL]`, then phone numbers by
`[PHONE]`. -/
def scrubPlanText (s : String) : String :=
  ⟨phonePass (emailPass s.data)⟩

/-- A position-by-position no-match predicate: scanning `cs` with the
preceding wordness `w` finds no match at any position. -/
def AllClean (M : Bool → List Char → Option Nat) : Bool → List Char → Prop
  | w, [] => M w [] = none
  | w, c :: cs => M w (c :: cs) = none ∧ AllClean M (isWordChar c) cs

/-- The facts the idempotence argument uses about each matcher: a match
is nonempty, stays inside the string, starts at a word boundary, ends
in a word character followed by a word boundary, contains no opening
bracket, and is preserved under any change of the characters at and
beyond its end that keeps the end non-word. -/
structure MatcherFacts (M : Bool → List Char → Option Nat) : Prop where
  nil : ∀ w, M w [] = none
  pos : ∀ {w cs n}, M w cs = some n → 1 ≤ n
  le : ∀ {w cs n}, M w cs = some n → n ≤ cs.length
  bStart : ∀ {w cs n}, M w cs = some n → w ≠ wordAt cs
  lastWord : ∀ {w cs n}, M w cs = some n →
    ∃ c, cs[n - 1]? = some c ∧ isWordChar c = true
  bAfter : ∀ {w cs n}, M w cs = some n → wordAt (cs.drop n) = false
  brack : ∀ {w cs n}, M w cs = some n → ∀ i, i < n → cs[i]? ≠ some '['
  transfer : ∀ {w cs cs2 n}, M w cs = some n →
    (∀ i, i < n → cs2[i]? = cs[i]?) → wordAt (cs2.drop n) = false →
    (M w cs2).isSome = true

/-- The decomposition a successful email match exhibits: a nonempty
local run, the `@`, a domain prefix ending at the dot position `k`, and
a maximal letter run of length `tl` followed by a word boundary. -/
def EmailShape (w : Bool) (cs : List Char) (ll k tl : Nat) : Prop :=
  w ≠ wordAt cs ∧ 1 ≤ ll ∧ 1 ≤ k ∧ 2 ≤ tl ∧
  (∀ i, i < ll → ∃ c, cs[i]? = some c ∧ isLocalChar c = true) ∧
  cs[ll]? = some '@' ∧
  (∀ i, i ≤ k → ∃ c, cs[ll + 1 + i]? = some c ∧ isDomainChar c = true) ∧
  cs[ll + 1 + k]? = some '.' ∧
  (∀ i, i < tl → ∃ c, cs[ll + 1 + k + 1 + i]? = some c ∧ c.isAlpha = true) ∧
  wordAt (cs.drop (ll + 1 + k + 1 + tl)) = false

/-- A separator character at position `i`. -/
def sepAt (cs : List Char) (i : Nat) : Prop :=
  ∃ c, cs[i]? = some c ∧ isSepChar c = true

/-- `m` digits starting at position `off`. -/
def digitsShape (cs : List Char) (off m : Nat) : Prop :=
  ∀ i, i < m → ∃ c, cs[off + i]? = some c ∧ c.isDigit = true

/-- The consumptions of `(?:\+1[-.\s]?)?`. -/
def APart (cs : List Char) (a : Nat) : Prop :=
  a = 0 ∨ (cs[0]? = some '+' ∧ cs[1]? = some '1' ∧
    (a = 2 ∨ (a = 3 ∧ sepAt cs 2)))

/-- The consumptions of `(?:\(?\d{3}\)?[-.\s]?)?`. -/
def BPart (cs : List Char) (b : Nat) : Prop :=
  b = 0 ∨ ∃ o cl sp, b = o + 3 + cl + sp ∧
    (o = 0 ∨ (o = 1 ∧ cs[0]? = some '(')) ∧ digitsShape cs o 3 ∧
    (cl = 0 ∨ (cl = 1 ∧ cs[o + 3]? = some ')')) ∧
    (sp = 0 ∨ (sp = 1 ∧ sepAt cs (o + 3 + cl)))

/-- The consumptions of `\d{3}[-.\s]?\d{4}`. -/
def CPart (cs : List Char) (c : Nat) : Prop :=
  ∃ sp, c = 3 + sp + 4 ∧ digitsShape cs 0 3 ∧
    (sp = 0 ∨ (sp = 1 ∧ sepAt cs 3)) ∧ digitsShape cs (3 + sp) 4

/-- The decomposition a successful phone match exhibits. -/
def PhoneShape (w : Bool) (cs : List Char) (a b c : Nat) : Prop :=
  w ≠ wordAt cs ∧ APart cs a ∧ BPart (cs.drop a) b ∧
  CPart (cs.drop (a + b)) c ∧ wordAt (cs.drop (a + b + c)) = false

/-- The provenance of a scan: each piece is either a character kept
because neither the scanned matcher `M` nor the audited matcher `Mp`
matches at its position (for the self-scan `Mp = M`; a cross audit
supplies `Mp`-cleanliness separately), or a replaced nonempty
`M`-match. -/
inductive Chain (M Mp : Bool → List Char → Option Nat) :
    Bool → List Char → List Piece → Prop where
  | nil : ∀ {w}, Chain M Mp w [] []
  | keep : ∀ {w c cs ps}, M w (c :: cs) = none → Mp w (c :: cs) = none →
      Chain M Mp (isWordChar c) cs ps → Chain M Mp w (c :: cs) (.keep c :: ps)
  | repl : ∀ {w cs n ps}, M w cs = some n → 1 ≤ n →
      Chain M Mp (lastWordness w (cs.take n)) (cs.drop n) ps →
      Chain M Mp w cs (.repl (cs.take n) :: ps)

end Privacy

/-!  Concrete request bodies and provider outputs used as witnesses and
counterexamples. -/

/-- A macro-totals object accepted by `macroTotalsSchema`. -/
def sampleMacrosJson : Json :=
  .obj [("calories", .num 500), ("protein", .num 40),
        ("carbs", .num 50), ("fat", .num 15)]

/-- A meal object (without a `swapOptions` key) whose `mealType` is the
given string. -/
def sampleMealJson (mt : String) : Json :=
  .obj [("name", .str "Oat bowl"), ("mealType", .str mt),
        ("description", .str "A bowl of oats."),
        ("portionGuidance", .str "80g dry oats"),
        ("estimatedMacros", sampleMacrosJson)]

/-- A full provider output whose four meals carry the given type tags. -/
def responseJsonOf (mts : List String) : Json :=
  .obj [("assumptions",
          .obj [("mealsPerDay", .num 4), ("notes", .str "Assumed four meals.")]),
        ("dailyTargets", sampleMacrosJson),
        ("meals", .arr (mts.map sampleMealJson)),
        ("notes", .str "Enjoy.")]

/-- A schema-conforming provider output all four of whose meals are
breakfasts. -/
def fourBreakfastsJson : Json :=
  responseJsonOf ["breakfast", "breakfast", "breakfast", "breakfast"]

/-- A schema-conforming provider output with one meal of each type. -/
def goodPlanJson : Json :=
  responseJsonOf ["breakfast", "lunch", "dinner", "snack"]

/-- A valid free-text request body for the plan routes. -/
def planTextBody : Json := .obj [("planText", .str "2000 kcal and no dairy")]

/-- A valid request body for the legacy meal route. -/
def storyBody : Json :=
  .obj [("storyText", .str "I need a meal plan for 2200 calories")]

/-- The structured request of the round-trip property. -/
def macrosBody : Json :=
  .obj [("macros",
          .obj [("calories", .num 2000), ("protein", .num 150),
                ("carbs", .num 200), ("fats", .num 70)]),
        ("details", .str "no dairy")]

/-- A structured request whose `calories` macro is negative. -/
def negativeMacrosBody : Json :=
  .obj [("macros",
          .obj [("calories", .num (-5)), ("protein", .num 150),
                ("carbs", .num 200), ("fats", .num 70)])]

/-- Whether `line` occurs in `s` as a contiguous substring. -/
def containsLine (s line : String) : Prop := line.data <:+: s.data

instance (s line : String) : Decidable (containsLine s line) :=
  List.decidableInfix line.data s.data

/-- Modelled from the spec: the details line of the rendered structured
prompt, `Details: <trimmed details>` when the trimmed details are
non-empty, `Details: none` otherwise. -/
def detailsSpecLine (d : String) : String :=
  if jsTrim d = "" then "Details: none" else "Details: " ++ jsTrim d

/-- Modelled from the spec: the rendered structured prompt with the
macro fields in the fixed order calories, protein, carbs, fat, followed
by the details line. -/
def specStructuredPrompt (c p cb f : Nat) (d : String) : String :=
  "Daily targets:" ++ "\n"
    ++ "- Calories: " ++ toString c ++ "\n"
    ++ "- Protein: " ++ toString p ++ "g" ++ "\n"
    ++ "- Carbs: " ++ toString cb ++ "g" ++ "\n"
    ++ "- Fat: " ++ toString f ++ "g" ++ "\n"
    ++ detailsSpecLine d

/-- A free-text body whose `planText` trims to fewer than 5 characters. -/
def shortTextBody : Json := .obj [("planText", .str "  hi ")]

/-- The meal value that `sampleMealJson "lunch"` parses to (its absent
`swapOptions` key becomes the default empty array). -/
def sampleParsedMeal : StrictSchema.Meal :=
  ⟨"Oat bowl", .lunch, "A bowl of oats.", "80g dry oats", ⟨500, 40, 50, 15⟩, []⟩

/-!  Helper lemmas about the schema parsers. -/

theorem strict_response_meals_length {j : Json} {r : StrictSchema.MealPlanResponse}
    (h : StrictSchema.parseMealPlanResponse j = some r) : r.meals.length = 4 := by
  unfold StrictSchema.parseMealPlanResponse at h
  repeat' split at h
  all_goals first
    | exact Option.noConfusion h
    | (rename_i hcond; injection h with h; subst h; exact hcond.1)

theorem strict_meal_swaps {j : Json} {m : StrictSchema.Meal}
    (h : StrictSchema.parseMeal j = some m) :
    m.swapOptions.length ≤ 2 ∧ (j.lookup "swapOptions" = none → m.swapOptions = []) := by
  unfold StrictSchema.parseMeal at h
  repeat' split at h
  all_goals try exact Option.noConfusion h
  rename_i hswap
  injection h with h
  subst h
  unfold StrictSchema.parseSwapOptions at hswap
  repeat' split at hswap
  all_goals try exact Option.noConfusion hswap
  all_goals injection hswap with hswap
  all_goals subst hswap
  all_goals simp_all

theorem strict_meals_mem {js : List Json} {ms : List StrictSchema.Meal}
    (h : StrictSchema.parseMeals js = some ms) :
    ∀ m ∈ ms, ∃ j, StrictSchema.parseMeal j = some m := by
  induction js generalizing ms with
  | nil =>
      unfold StrictSchema.parseMeals at h
      injection h with h
      subst h
      simp
  | cons j rest ih =>
      unfold StrictSchema.parseMeals at h
      repeat' split at h
      all_goals try exact Option.noConfusion h
      rename_i m0 tail hm0 htail
      injection h with h
      subst h
      intro m hm
      rcases List.mem_cons.mp hm with rfl | hmem
      · exact ⟨j, hm0⟩
      · exact ih htail m hmem

theorem strict_response_meal_src {j : Json} {r : StrictSchema.MealPlanResponse}
    (h : StrictSchema.parseMealPlanResponse j = some r) :
    ∀ m ∈ r.meals, ∃ j', StrictSchema.parseMeal j' = some m := by
  unfold StrictSchema.parseMealPlanResponse at h
  repeat' split at h
  all_goals try exact Option.noConfusion h
  injection h with h
  subst h
  exact strict_meals_mem (by assumption)

theorem plan_request_ok_src {j : Json} {t : String}
    (h : PlanRoute.parseRequest j = .ok t) :
    ∃ s, j.lookup "planText" = some (.str s) ∧ t = jsTrim s ∧ 5 ≤ t.length := by
  unfold PlanRoute.parseRequest at h
  repeat' split at h
  all_goals try exact Except.noConfusion h
  injection h with h
  subst h
  exact ⟨_, by assumption, rfl, by assumption⟩

theorem macros_option_ok_shape {j : Json} {r : PlanMacrosRoute.MealPlanRequest}
    (h : PlanMacrosRoute.parseMacrosOption j = .ok r) :
    ∃ c p cb f d, r = .macros c p cb f d := by
  unfold PlanMacrosRoute.parseMacrosOption at h
  repeat' split at h
  all_goals try exact Except.noConfusion h
  all_goals (injection h with h; subst h; exact ⟨_, _, _, _, _, rfl⟩)


/-!  Claim theorems. -/

/-- C3: for every free-text request whose `planText` has trimmed length
strictly less than 5 characters, the `plan.ts` handler returns status
400 and issues no call to the external completion provider. -/
theorem c3_short_plan_text_rejected (requestId : String) (body : Json) (s : String)
    (outcome : CompletionOutcome)
    (hfield : body.lookup "planText" = some (.str s))
    (hshort : (jsTrim s).length < 5) :
    (PlanRoute.handler requestId body outcome).status = 400 ∧
    (PlanRoute.handler requestId body outcome).completionCalled = false := by
  have hobj : ∃ fs, body = .obj fs := by
    cases body <;> simp [Json.lookup] at hfield
    exact ⟨_, rfl⟩
  obtain ⟨fs, rfl⟩ := hobj
  have hp : PlanRoute.parseRequest (.obj fs) =
      .error [⟨["planText"], "Please enter your macros and any restrictions."⟩] := by
    unfold PlanRoute.parseRequest
    rw [hfield]
    simp [Nat.not_le.mpr hshort]
  simp [PlanRoute.handler, hp]

/-- Witness for C3 at the concrete body whose `planText` trims to
`hi`. -/
theorem c3_short_plan_text_rejected_witness :
    (PlanRoute.handler "w3" shortTextBody .threw).status = 400 ∧
    (PlanRoute.handler "w3" shortTextBody .threw).completionCalled = false :=
  c3_short_plan_text_rejected "w3" shortTextBody "  hi " .threw (by rfl) (by decide)

/-- C1 counterexample: a schema-conforming provider output whose four
meals are all breakfasts is relayed with status 200, so a 200 response
need not contain one meal of each of the four types. -/
theorem c1_counterexample :
    (PlanRoute.handler "cid1" planTextBody (.ok (some fourBreakfastsJson))).status = 200 ∧
    ((PlanRoute.handler "cid1" planTextBody (.ok (some fourBreakfastsJson))).bodyPlan.map
        (fun plan => plan.meals.map (fun m => m.mealType))) =
      some [.breakfast, .breakfast, .breakfast, .breakfast] := by
  constructor <;> decide

/-- C1 amended: every response the `plan.ts` handler returns with status
200 carries a plan whose `meals` array has length exactly 4 and whose
every element's `mealType` lies in the breakfast/lunch/dinner/snack
enum; the four types need not be pairwise distinct. -/
theorem c1_amended_success_shape (requestId : String) (body : Json)
    (outcome : CompletionOutcome)
    (h : (PlanRoute.handler requestId body outcome).status = 200) :
    ∃ plan, (PlanRoute.handler requestId body outcome).bodyPlan = some plan ∧
      plan.meals.length = 4 ∧
      ∀ m ∈ plan.meals, m.mealType = .breakfast ∨ m.mealType = .lunch ∨
        m.mealType = .dinner ∨ m.mealType = .snack := by
  rcases hp : PlanRoute.parseRequest body with e | t
  · simp [PlanRoute.handler, hp] at h
  · cases outcome with
    | threw => simp [PlanRoute.handler, hp] at h
    | ok raw =>
        rcases ho : outputParsed raw with _ | plan
        · simp [PlanRoute.handler, hp, ho] at h
        · refine ⟨plan, by simp [PlanRoute.handler, hp, ho], ?_, ?_⟩
          · rcases raw with _ | j
            · exact Option.noConfusion ho
            · exact strict_response_meals_length ho
          · intro m hm
            cases m.mealType <;> simp

/-- Witness for C1's amended theorem at a concrete 200 response. -/
theorem c1_amended_success_shape_witness :
    ∃ plan, (PlanRoute.handler "w1" planTextBody (.ok (some goodPlanJson))).bodyPlan = some plan ∧
      plan.meals.length = 4 ∧
      ∀ m ∈ plan.meals, m.mealType = .breakfast ∨ m.mealType = .lunch ∨
        m.mealType = .dinner ∨ m.mealType = .snack :=
  c1_amended_success_shape "w1" planTextBody (.ok (some goodPlanJson)) (by decide)

/-- C10: response validation fills in the `swapOptions` default: a meal
object without a `swapOptions` key parses to the empty array rather
than failing, every parsed meal has at most two swap options, and hence
every plan carried by a 200 response has `swapOptions` of length 0 to 2
on every meal. -/
theorem c10_swap_options_defaulted :
    (∀ j m, StrictSchema.parseMeal j = some m →
        m.swapOptions.length ≤ 2 ∧
        (j.lookup "swapOptions" = none → m.swapOptions = [])) ∧
    (∀ requestId body outcome plan,
        (PlanRoute.handler requestId body outcome).bodyPlan = some plan →
        ∀ m ∈ plan.meals, m.swapOptions.length ≤ 2) := by
  refine ⟨fun j m hm => strict_meal_swaps hm, ?_⟩
  intro requestId body outcome plan h m hm
  rcases hp : PlanRoute.parseRequest body with e | t
  · simp [PlanRoute.handler, hp] at h
  · cases outcome with
    | threw => simp [PlanRoute.handler, hp] at h
    | ok raw =>
        rcases ho : outputParsed raw with _ | plan0
        · simp [PlanRoute.handler, hp, ho] at h
        · have hplan : plan0 = plan := by
            simpa [PlanRoute.handler, hp, ho] using h
          subst hplan
          rcases raw with _ | j
          · exact Option.noConfusion ho
          · obtain ⟨j', hj'⟩ := strict_response_meal_src ho m hm
            exact (strict_meal_swaps hj').1

/-- Witness for C10 at the concrete meal object without `swapOptions`. -/
theorem c10_swap_options_defaulted_witness :
    sampleParsedMeal.swapOptions.length ≤ 2 ∧
    ((sampleMealJson "lunch").lookup "swapOptions" = none →
      sampleParsedMeal.swapOptions = []) :=
  c10_swap_options_defaulted.1 (sampleMealJson "lunch") sampleParsedMeal (by decide)

/-- C2 counterexample: on an accepted request, when the completion call
succeeds but yields no schema-conforming object, the `meal.ts` handler
responds 200 with a null body instead of 502. -/
theorem c2_counterexample :
    (MealRoute.handler storyBody (.ok none)).status = 200 ∧
    (MealRoute.handler storyBody (.ok none)).bodyIsNull = true ∧
    (MealRoute.handler storyBody (.ok none)).status ≠ 502 :=
  ⟨by decide, by decide, by decide⟩

/-- C2 amended: on an accepted request whose completion succeeds with no
conforming parsed object, the two plan-route handlers return 502 and no
plan, while the legacy `meal.ts` handler relays the null output with
status 200. -/
theorem c2_amended_format_error_status :
    (∀ requestId body raw t, PlanRoute.parseRequest body = .ok t →
        outputParsed raw = none →
        (PlanRoute.handler requestId body (.ok raw)).status = 502 ∧
        (PlanRoute.handler requestId body (.ok raw)).bodyPlan = none) ∧
    (∀ requestId body raw r, PlanMacrosRoute.parseRequest body = .ok r →
        outputParsed raw = none →
        (PlanMacrosRoute.handler requestId body (.ok raw)).status = 502 ∧
        (PlanMacrosRoute.handler requestId body (.ok raw)).bodyPlan = none) ∧
    (∀ body raw s, MealRoute.parseRequest body = some s →
        raw.bind MealRoute.parseLooseResponse = none →
        (MealRoute.handler body (.ok raw)).status = 200 ∧
        (MealRoute.handler body (.ok raw)).bodyIsNull = true) := by
  refine ⟨?_, ?_, ?_⟩
  · intro requestId body raw t hp ho
    simp [PlanRoute.handler, hp, ho]
  · intro requestId body raw r hp ho
    simp [PlanMacrosRoute.handler, hp, ho]
  · intro body raw s hp ho
    simp [MealRoute.handler, hp, ho]

/-- Witness for C2's amended theorem at concrete accepted requests with
an absent parsed output. -/
theorem c2_amended_format_error_status_witness :
    ((PlanRoute.handler "w2" planTextBody (.ok none)).status = 502 ∧
      (PlanRoute.handler "w2" planTextBody (.ok none)).bodyPlan = none) ∧
    ((PlanMacrosRoute.handler "w2" macrosBody (.ok none)).status = 502 ∧
      (PlanMacrosRoute.handler "w2" macrosBody (.ok none)).bodyPlan = none) ∧
    ((MealRoute.handler storyBody (.ok none)).status = 200 ∧
      (MealRoute.handler storyBody (.ok none)).bodyIsNull = true) :=
  ⟨c2_amended_format_error_status.1 "w2" planTextBody none "2000 kcal and no dairy"
      (by rfl) (by rfl),
   c2_amended_format_error_status.2.1 "w2" macrosBody none (.macros 2000 150 200 70 "no dairy")
      (by rfl) (by rfl),
   c2_amended_format_error_status.2.2 storyBody none "I need a meal plan for 2200 calories"
      (by rfl) (by rfl)⟩

/-- C4 counterexample: a structured request with a negative `calories`
macro is rejected with 400, but `details` carries only the root-level
union message `Invalid input`: no violated macro field is named. -/
theorem c4_counterexample :
    (PlanMacrosRoute.handler "cid4" negativeMacrosBody .threw).status = 400 ∧
    (PlanMacrosRoute.handler "cid4" negativeMacrosBody .threw).bodyDetails =
      some ⟨["Invalid input"], []⟩ := by
  constructor <;> rfl

/-- C4 amended: whenever both union options reject the body (in
particular for every structured request with a missing, non-integer or
negative macro field and no valid `planText`), the handler returns 400
without calling the provider, and `details` flattens to the single
root-level `Invalid input` union error with an empty `fieldErrors`
object, naming no individual macro field. -/
theorem c4_amended_invalid_macros_400 (requestId : String) (body : Json)
    (outcome : CompletionOutcome) (e₁ e₂ : List Issue)
    (ht : PlanMacrosRoute.parseTextOption body = .error e₁)
    (hm : PlanMacrosRoute.parseMacrosOption body = .error e₂) :
    (PlanMacrosRoute.handler requestId body outcome).status = 400 ∧
    (PlanMacrosRoute.handler requestId body outcome).completionCalled = false ∧
    (PlanMacrosRoute.handler requestId body outcome).bodyRequestId = some requestId ∧
    (PlanMacrosRoute.handler requestId body outcome).bodyDetails =
      some ⟨["Invalid input"], []⟩ := by
  have hp : PlanMacrosRoute.parseRequest body = .error [⟨[], "Invalid input"⟩] := by
    unfold PlanMacrosRoute.parseRequest
    rw [ht, hm]
  simp [PlanMacrosRoute.handler, hp]
  rfl

/-- Witness for C4's amended theorem at the negative-calories body. -/
theorem c4_amended_invalid_macros_400_witness :
    (PlanMacrosRoute.handler "w4" negativeMacrosBody .threw).status = 400 ∧
    (PlanMacrosRoute.handler "w4" negativeMacrosBody .threw).completionCalled = false ∧
    (PlanMacrosRoute.handler "w4" negativeMacrosBody .threw).bodyRequestId = some "w4" ∧
    (PlanMacrosRoute.handler "w4" negativeMacrosBody .threw).bodyDetails =
      some ⟨["Invalid input"], []⟩ :=
  c4_amended_invalid_macros_400 "w4" negativeMacrosBody .threw _ _ (by rfl) (by rfl)

/-- C5: the structured request with macros 2000/150/200/70 and details
`no dairy` validates, and the prompt built for it contains the literal
lines `Calories: 2000`, `Protein: 150g`, `Carbs: 200g`, `Fat: 70g` and
`Details: no dairy`. -/
theorem c5_round_trip_prompt :
    PlanMacrosRoute.parseRequest macrosBody = .ok (.macros 2000 150 200 70 "no dairy") ∧
    containsLine (PlanMacrosRoute.buildPromptFromRequest (.macros 2000 150 200 70 "no dairy"))
      "Calories: 2000" ∧
    containsLine (PlanMacrosRoute.buildPromptFromRequest (.macros 2000 150 200 70 "no dairy"))
      "Protein: 150g" ∧
    containsLine (PlanMacrosRoute.buildPromptFromRequest (.macros 2000 150 200 70 "no dairy"))
      "Carbs: 200g" ∧
    containsLine (PlanMacrosRoute.buildPromptFromRequest (.macros 2000 150 200 70 "no dairy"))
      "Fat: 70g" ∧
    containsLine (PlanMacrosRoute.buildPromptFromRequest (.macros 2000 150 200 70 "no dairy"))
      "Details: no dairy" :=
  ⟨by rfl, by decide, by decide, by decide, by decide, by decide⟩

/-- C6: for every validated structured request the prompt builder
renders the macro fields in the fixed order calories, protein, carbs,
fat followed by the details line (`Details: <trimmed details>` when
non-empty, `Details: none` otherwise), and for every validated
free-text request the trimmed text is passed through unchanged. -/
theorem c6_prompt_rendering :
    (∀ body c p cb f d,
        PlanMacrosRoute.parseRequest body = .ok (.macros c p cb f d) →
        PlanMacrosRoute.buildPromptFromRequest (.macros c p cb f d) =
          specStructuredPrompt c p cb f d) ∧
    (∀ body t, PlanMacrosRoute.parseRequest body = .ok (.text t) →
        PlanMacrosRoute.buildPromptFromRequest (.text t) = t ∧
        ∃ s, body.lookup "planText" = some (.str s) ∧ t = jsTrim s) := by
  constructor
  · intro body c p cb f d _
    rfl
  · intro body t hp
    refine ⟨rfl, ?_⟩
    unfold PlanMacrosRoute.parseRequest at hp
    rcases htext : PlanMacrosRoute.parseTextOption body with e | r
    · rw [htext] at hp
      rcases hmac : PlanMacrosRoute.parseMacrosOption body with e2 | r2
      · rw [hmac] at hp
        exact Except.noConfusion hp
      · rw [hmac] at hp
        injection hp with hp
        subst hp
        obtain ⟨c, p, cb, f, d, habs⟩ := macros_option_ok_shape hmac
        exact PlanMacrosRoute.MealPlanRequest.noConfusion habs
    · rw [htext] at hp
      injection hp with hp
      subst hp
      unfold PlanMacrosRoute.parseTextOption at htext
      rcases hreq : PlanRoute.parseRequest body with e | t0
      · rw [hreq] at htext
        exact Except.noConfusion htext
      · rw [hreq] at htext
        injection htext with htext
        obtain ⟨s, hlook, hts, _⟩ := plan_request_ok_src hreq
        injection htext with htext
        exact ⟨s, hlook, by rw [← htext, hts]⟩

/-- Witness for C6 at the concrete structured and free-text requests. -/
theorem c6_prompt_rendering_witness :
    PlanMacrosRoute.buildPromptFromRequest (.macros 2000 150 200 70 "no dairy") =
      specStructuredPrompt 2000 150 200 70 "no dairy" ∧
    PlanMacrosRoute.buildPromptFromRequest (.text "2000 kcal and no dairy") =
      "2000 kcal and no dairy" :=
  ⟨c6_prompt_rendering.1 macrosBody 2000 150 200 70 "no dairy" (by rfl),
   (c6_prompt_rendering.2 planTextBody "2000 kcal and no dairy" (by rfl)).1⟩

/-- C7: on every accepted request whose completion call throws, each of
the three handlers catches the exception and returns status 500 with
its generic error message; the handlers are total functions, so no
request crashes the process. -/
theorem c7_throw_returns_500 :
    (∀ requestId body t, PlanRoute.parseRequest body = .ok t →
        PlanRoute.handler requestId body .threw =
          ⟨500, true, some "Failed to generate meal plan at this time.",
            some requestId, none, none, true⟩) ∧
    (∀ requestId body r, PlanMacrosRoute.parseRequest body = .ok r →
        PlanMacrosRoute.handler requestId body .threw =
          ⟨500, true, some "Failed to generate meal plan at this time.",
            some requestId, none, none, true⟩) ∧
    (∀ body s, MealRoute.parseRequest body = some s →
        MealRoute.handler body .threw =
          ⟨500, false, some "Failed to generate meal plan at this time.",
            none, false, none, true⟩) := by
  refine ⟨?_, ?_, ?_⟩
  · intro requestId body t hp
    simp [PlanRoute.handler, hp]
  · intro requestId body r hp
    simp [PlanMacrosRoute.handler, hp]
  · intro body s hp
    simp [MealRoute.handler, hp]

/-- Witness for C7 at concrete accepted requests. -/
theorem c7_throw_returns_500_witness :
    PlanRoute.handler "w7" planTextBody .threw =
      ⟨500, true, some "Failed to generate meal plan at this time.",
        some "w7", none, none, true⟩ ∧
    PlanMacrosRoute.handler "w7" macrosBody .threw =
      ⟨500, true, some "Failed to generate meal plan at this time.",
        some "w7", none, none, true⟩ ∧
    MealRoute.handler storyBody .threw =
      ⟨500, false, some "Failed to generate meal plan at this time.",
        none, false, none, true⟩ :=
  ⟨c7_throw_returns_500.1 "w7" planTextBody "2000 kcal and no dairy" (by rfl),
   c7_throw_returns_500.2.1 "w7" macrosBody (.macros 2000 150 200 70 "no dairy") (by rfl),
   c7_throw_returns_500.2.2 storyBody "I need a meal plan for 2200 calories" (by rfl)⟩

/-- C8 counterexample: the 400 response of the `plan.ts` handler never
sets the `x-request-id` header, so not every response carries the
correlation id in its header. -/
theorem c8_counterexample :
    (PlanRoute.handler "cid8" (Json.obj []) .threw).status = 400 ∧
    (PlanRoute.handler "cid8" (Json.obj []) .threw).xRequestIdSet = false := by
  constructor <;> rfl

/-- C8 amended: the plan-route handlers set the `x-request-id` header on
their 200, 502 and 500 responses but never on 400, and include the
requestId in every non-200 body; the legacy `meal.ts` handler sets no
header and returns no requestId at all. -/
theorem c8_amended_correlation_id :
    (∀ requestId body outcome,
        ((PlanRoute.handler requestId body outcome).status ≠ 400 →
          (PlanRoute.handler requestId body outcome).xRequestIdSet = true) ∧
        ((PlanRoute.handler requestId body outcome).status = 400 →
          (PlanRoute.handler requestId body outcome).xRequestIdSet = false) ∧
        ((PlanRoute.handler requestId body outcome).status ≠ 200 →
          (PlanRoute.handler requestId body outcome).bodyRequestId = some requestId)) ∧
    (∀ requestId body outcome,
        ((PlanMacrosRoute.handler requestId body outcome).status ≠ 400 →
          (PlanMacrosRoute.handler requestId body outcome).xRequestIdSet = true) ∧
        ((PlanMacrosRoute.handler requestId body outcome).status = 400 →
          (PlanMacrosRoute.handler requestId body outcome).xRequestIdSet = false) ∧
        ((PlanMacrosRoute.handler requestId body outcome).status ≠ 200 →
          (PlanMacrosRoute.handler requestId body outcome).bodyRequestId = some requestId)) ∧
    (∀ body outcome,
        (MealRoute.handler body outcome).xRequestIdSet = false ∧
        (MealRoute.handler body outcome).bodyRequestId = none) := by
  refine ⟨?_, ?_, ?_⟩
  · intro requestId body outcome
    rcases hp : PlanRoute.parseRequest body with e | t
    · simp [PlanRoute.handler, hp]
    · cases outcome with
      | threw => simp [PlanRoute.handler, hp]
      | ok raw =>
          rcases ho : outputParsed raw with _ | plan <;>
            simp [PlanRoute.handler, hp, ho]
  · intro requestId body outcome
    rcases hp : PlanMacrosRoute.parseRequest body with e | t
    · simp [PlanMacrosRoute.handler, hp]
    · cases outcome with
      | threw => simp [PlanMacrosRoute.handler, hp]
      | ok raw =>
          rcases ho : outputParsed raw with _ | plan <;>
            simp [PlanMacrosRoute.handler, hp, ho]
  · intro body outcome
    rcases hp : MealRoute.parseRequest body with _ | s
    · simp [MealRoute.handler, hp]
    · cases outcome with
      | threw => simp [MealRoute.handler, hp]
      | ok raw =>
          rcases ho : raw.bind MealRoute.parseLooseResponse with _ | parsed <;>
            simp [MealRoute.handler, hp, ho]

/-- Witness for C8's amended theorem at concrete responses of each
status. -/
theorem c8_amended_correlation_id_witness :
    (PlanRoute.handler "w8" planTextBody .threw).xRequestIdSet = true ∧
    (PlanRoute.handler "w8" planTextBody .threw).bodyRequestId = some "w8" ∧
    (PlanRoute.handler "w8" (Json.obj []) .threw).xRequestIdSet = false ∧
    (MealRoute.handler storyBody .threw).xRequestIdSet = false :=
  ⟨(c8_amended_correlation_id.1 "w8" planTextBody .threw).1 (by decide),
   (c8_amended_correlation_id.1 "w8" planTextBody .threw).2.2 (by decide),
   (c8_amended_correlation_id.1 "w8" (Json.obj []) .threw).2.1 (by rfl),
   (c8_amended_correlation_id.2.2 storyBody .threw).1⟩

namespace Privacy

theorem wordAt_eq_getElem (l : List Char) :
    wordAt l = (match l[0]? with | some c => isWordChar c | none => false) := by
  cases l with
  | nil => rfl
  | cons c l => simp [wordAt]

theorem wordAt_congr {l l2 : List Char} (h : l[0]? = l2[0]?) : wordAt l = wordAt l2 := by
  rw [wordAt_eq_getElem, wordAt_eq_getElem, h]

theorem wordAt_drop (l : List Char) (n : Nat) :
    wordAt (l.drop n) = (match l[n]? with | some c => isWordChar c | none => false) := by
  rw [wordAt_eq_getElem, List.getElem?_drop]
  simp

theorem wordAt_drop_false {l : List Char} {n : Nat} (h : wordAt (l.drop n) = false) :
    ∀ c, l[n]? = some c → isWordChar c = false := by
  intro c hc
  rw [wordAt_drop, hc] at h
  exact h

theorem wordAt_drop_of {l : List Char} {n : Nat}
    (h : ∀ c, l[n]? = some c → isWordChar c = false) : wordAt (l.drop n) = false := by
  rw [wordAt_drop]
  cases hc : l[n]? with
  | none => rfl
  | some c => exact h c hc

theorem lastWordness_cons (w : Bool) (c : Char) (l : List Char) :
    lastWordness w (c :: l) = lastWordness (isWordChar c) l := by
  cases l with
  | nil => simp [lastWordness]
  | cons d l' =>
      cases hg : (d :: l').getLast? with
      | none => exact absurd (List.getLast?_eq_none_iff.mp hg) (by simp)
      | some x => simp [lastWordness, List.getLast?_cons_cons, hg]

theorem lastWordness_take {l : List Char} {n : Nat} {c : Char} (w : Bool)
    (hc : l[n - 1]? = some c) (hn : 1 ≤ n) :
    lastWordness w (l.take n) = isWordChar c := by
  have hlt : n - 1 < l.length := by
    by_contra hge
    rw [List.getElem?_eq_none (by omega)] at hc
    exact Option.noConfusion hc
  have hlast : (l.take n).getLast? = some c := by
    rw [List.getLast?_eq_getElem?]
    have hlen : (l.take n).length = min n l.length := List.length_take ..
    rcases Nat.lt_or_ge n l.length with hlt2 | hge2
    · rw [hlen]
      have he : min n l.length - 1 = n - 1 := by omega
      rw [he, List.getElem?_take_of_lt (by omega), hc]
    · rw [hlen]
      have he : min n l.length - 1 = n - 1 := by omega
      rw [he, List.getElem?_take_of_lt (by omega), hc]
  simp [lastWordness, hlast]

theorem takeWhile_len {p : Char → Bool} :
    ∀ {l : List Char} {m : Nat},
      (l.takeWhile p).length = m ↔
        ((∀ i, i < m → ∃ c, l[i]? = some c ∧ p c = true) ∧
          (∀ c, l[m]? = some c → p c = false)) := by
  intro l
  induction l with
  | nil =>
      intro m
      constructor
      · intro h
        subst h
        simp
      · intro ⟨h1, _⟩
        rcases m with _ | m
        · simp
        · obtain ⟨c, hc, _⟩ := h1 0 (by omega)
          simp at hc
  | cons a l ih =>
      intro m
      by_cases ha : p a = true
      · rw [List.takeWhile_cons_of_pos ha]
        constructor
        · intro h
          rcases m with _ | m
          · simp at h
          · simp only [List.length_cons, Nat.succ_inj] at h
            obtain ⟨h1, h2⟩ := ih.mp h
            refine ⟨?_, ?_⟩
            · intro i hi
              rcases i with _ | i
              · exact ⟨a, by simp, ha⟩
              · obtain ⟨c, hc, hpc⟩ := h1 i (by omega)
                exact ⟨c, by simpa using hc, hpc⟩
            · intro c hc
              exact h2 c (by simpa using hc)
        · intro ⟨h1, h2⟩
          rcases m with _ | m
          · have h0 := h2 a (by simp)
            rw [ha] at h0
            exact Bool.noConfusion h0
          · simp only [List.length_cons, Nat.succ_inj]
            refine ih.mpr ⟨?_, ?_⟩
            · intro i hi
              obtain ⟨c, hc, hpc⟩ := h1 (i + 1) (by omega)
              exact ⟨c, by simpa using hc, hpc⟩
            · intro c hc
              exact h2 c (by simpa using hc)
      · rw [List.takeWhile_cons_of_neg ha]
        constructor
        · intro h
          have hm : m = 0 := by simpa using h.symm
          subst hm
          refine ⟨fun i hi => absurd hi (by omega), ?_⟩
          intro c hc
          simp at hc
          subst hc
          exact Bool.eq_false_iff.mpr ha
        · intro ⟨h1, _⟩
          rcases m with _ | m
          · rfl
          · obtain ⟨c, hc, hpc⟩ := h1 0 (by omega)
            simp at hc
            subst hc
            exact absurd hpc ha

theorem takeWhile_len_ge {p : Char → Bool} {l : List Char} {m : Nat}
    (h : ∀ i, i < m → ∃ c, l[i]? = some c ∧ p c = true) :
    m ≤ (l.takeWhile p).length := by
  induction l generalizing m with
  | nil =>
      rcases m with _ | m
      · omega
      · obtain ⟨c, hc, _⟩ := h 0 (by omega)
        simp at hc
  | cons a l ih =>
      rcases m with _ | m
      · omega
      · obtain ⟨c0, hc0, hp0⟩ := h 0 (by omega)
        simp at hc0
        subst hc0
        rw [List.takeWhile_cons_of_pos hp0]
        simp only [List.length_cons, Nat.succ_le_succ_iff]
        refine ih ?_
        intro i hi
        obtain ⟨c, hc, hpc⟩ := h (i + 1) (by omega)
        exact ⟨c, by simpa using hc, hpc⟩

theorem digitRun_iff {cs : List Char} {m : Nat} :
    digitRun cs m = true ↔ ∀ i, i < m → ∃ c, cs[i]? = some c ∧ c.isDigit = true := by
  unfold digitRun
  rw [Bool.and_eq_true, decide_eq_true_iff, List.all_eq_true]
  constructor
  · intro ⟨hlen, hall⟩ i hi
    have hm : m ≤ cs.length := by
      have hx := List.length_take m cs
      omega
    have hi2 : i < cs.length := by omega
    refine ⟨cs[i], by simp [List.getElem?_eq_getElem hi2], ?_⟩
    have hmem : cs[i] ∈ cs.take m := by
      rw [List.mem_take_iff_getElem]
      exact ⟨i, by omega, rfl⟩
    exact hall _ hmem
  · intro h
    have hm : m ≤ cs.length := by
      by_contra hgt
      obtain ⟨c, hc, _⟩ := h cs.length (by omega)
      rw [List.getElem?_eq_none (by omega)] at hc
      exact Option.noConfusion hc
    refine ⟨by rw [List.length_take]; omega, ?_⟩
    intro c hc
    rw [List.mem_take_iff_getElem] at hc
    obtain ⟨i, hi, hci⟩ := hc
    obtain ⟨c', hc', hd⟩ := h i (by omega)
    rw [List.getElem?_eq_getElem (by omega)] at hc'
    injection hc' with hc'
    rw [← hci, hc']
    exact hd

end Privacy

namespace Privacy

theorem emailMatch_some {w : Bool} {cs : List Char} {n : Nat}
    (h : emailMatch w cs = some n) :
    ∃ ll k tl, n = ll + 1 + k + 1 + tl ∧ EmailShape w cs ll k tl := by
  unfold emailMatch at h
  split at h
  · exact Option.noConfusion h
  rename_i hb
  split at h
  · exact Option.noConfusion h
  rename_i hll0
  split at h
  case _ =>
      rename_i hat
      obtain ⟨k, hkmem, hk⟩ := List.exists_of_findSome?_eq_some h
      split at hk
      case _ =>
        rename_i hcond
        split at hk
        · exact Option.noConfusion hk
        · exact Option.noConfusion hk
        case _ =>
          rename_i tl0 htl0 htl1
          split at hk
          case _ =>
            rename_i hba
            injection hk with hk
            obtain ⟨hk1, hdot⟩ := hcond
            rw [List.mem_reverse, List.mem_range] at hkmem
            rw [List.head?_eq_getElem?, List.getElem?_drop, Nat.add_zero] at hat
            have hll1 : 1 ≤ (cs.takeWhile isLocalChar).length := by
              rcases e : (cs.takeWhile isLocalChar).length with _ | m
              · exact absurd e hll0
              · omega
            have htl2 : 2 ≤ (((cs.drop ((cs.takeWhile isLocalChar).length + 1)).drop (k + 1)).takeWhile Char.isAlpha).length := by
              rcases e : (((cs.drop ((cs.takeWhile isLocalChar).length + 1)).drop (k + 1)).takeWhile Char.isAlpha).length with _ | _ | m
              · exact absurd e htl0
              · exact absurd e htl1
              · omega
            refine ⟨(cs.takeWhile isLocalChar).length, k,
              (((cs.drop ((cs.takeWhile isLocalChar).length + 1)).drop (k + 1)).takeWhile Char.isAlpha).length,
              by omega, hb, hll1, hk1, htl2, ?_, hat, ?_, ?_, ?_, ?_⟩
            · intro i hi
              exact (takeWhile_len.mp rfl).1 i hi
            · intro i hi
              have hid : i < ((cs.drop ((cs.takeWhile isLocalChar).length + 1)).takeWhile isDomainChar).length := by
                omega
              obtain ⟨c, hc, hdc⟩ := (takeWhile_len.mp rfl).1 i hid
              rw [List.getElem?_drop] at hc
              exact ⟨c, hc, hdc⟩
            · rw [← List.getElem?_drop]
              exact hdot
            · intro i hi
              obtain ⟨c, hc, hac⟩ := (takeWhile_len.mp rfl).1 i hi
              rw [List.getElem?_drop, List.getElem?_drop] at hc
              refine ⟨c, ?_, hac⟩
              rw [show (cs.takeWhile isLocalChar).length + 1 + k + 1 + i =
                (cs.takeWhile isLocalChar).length + 1 + (k + 1 + i) from by omega]
              exact hc
            · rw [List.drop_drop] at hba
              rw [show (cs.takeWhile isLocalChar).length + 1 + k + 1 +
                  (((cs.drop ((cs.takeWhile isLocalChar).length + 1)).drop (k + 1)).takeWhile Char.isAlpha).length =
                (cs.takeWhile isLocalChar).length + 1 + (k + 1 +
                  (((cs.drop ((cs.takeWhile isLocalChar).length + 1)).drop (k + 1)).takeWhile Char.isAlpha).length) from by omega]
              exact hba
          case _ => exact Option.noConfusion hk
      case _ => exact Option.noConfusion hk
  case _ => exact Option.noConfusion h

end Privacy

namespace Privacy

theorem alpha_word {c : Char} (h : c.isAlpha = true) : isWordChar c = true := by
  simp [isWordChar, h]

theorem digit_word {c : Char} (h : c.isDigit = true) : isWordChar c = true := by
  simp [isWordChar, h]

theorem emailMatch_isSome {w : Bool} {cs : List Char} {ll k tl : Nat}
    (h : EmailShape w cs ll k tl) : (emailMatch w cs).isSome = true := by
  obtain ⟨hb, hll1, hk1, htl2, hloc, hat, hdom, hdot, htld, hba⟩ := h
  have hLL : (cs.takeWhile isLocalChar).length = ll := by
    rw [takeWhile_len]
    refine ⟨hloc, ?_⟩
    intro c hc
    rw [hat] at hc
    injection hc with hc
    subst hc
    decide
  have hTL : (((cs.drop (ll + 1)).drop (k + 1)).takeWhile Char.isAlpha).length = tl := by
    rw [takeWhile_len]
    constructor
    · intro i hi
      obtain ⟨c, hc, hac⟩ := htld i hi
      refine ⟨c, ?_, hac⟩
      rw [List.getElem?_drop, List.getElem?_drop]
      rw [show ll + 1 + (k + 1 + i) = ll + 1 + k + 1 + i from by omega]
      exact hc
    · intro c hc
      rw [List.getElem?_drop, List.getElem?_drop] at hc
      have hw := wordAt_drop_false hba c
        (by rw [show ll + 1 + k + 1 + tl = ll + 1 + (k + 1 + tl) from by omega]; exact hc)
      by_contra hal
      rw [alpha_word (by simpa using hal)] at hw
      exact Bool.noConfusion hw
  have hdl : k < ((cs.drop (ll + 1)).takeWhile isDomainChar).length := by
    have hge := takeWhile_len_ge (p := isDomainChar) (l := cs.drop (ll + 1)) (m := k + 1)
      (by
        intro i hi
        obtain ⟨c, hc, hdc⟩ := hdom i (by omega)
        refine ⟨c, ?_, hdc⟩
        rw [List.getElem?_drop]
        exact hc)
    omega
  obtain ⟨m2, hm2⟩ : ∃ m, tl = m + 2 := ⟨tl - 2, by omega⟩
  obtain ⟨m1, hm1⟩ : ∃ m, ll = m + 1 := ⟨ll - 1, by omega⟩
  unfold emailMatch
  rw [if_neg hb, hLL, hm1]
  have hat2 : (cs.drop (m1 + 1)).head? = some '@' := by
    rw [List.head?_eq_getElem?, List.getElem?_drop, Nat.add_zero, ← hm1]
    exact hat
  simp only [hat2]
  cases hfs : ((List.range ((cs.drop (m1 + 1 + 1)).takeWhile isDomainChar).length).reverse).findSome?
      (fun kk =>
        if 1 ≤ kk ∧ (cs.drop (m1 + 1 + 1))[kk]? = some '.' then
          match ((( cs.drop (m1 + 1 + 1)).drop (kk + 1)).takeWhile Char.isAlpha).length with
          | 0 => none
          | 1 => none
          | tl2 =>
            if wordAt (((cs.drop (m1 + 1 + 1))).drop (kk + 1 + tl2)) = false then
              some (m1 + 1 + 1 + kk + 1 + tl2)
            else none
        else none) with
  | some v => simp [hfs]
  | none =>
      exfalso
      rw [List.findSome?_eq_none_iff] at hfs
      have hkmem : k ∈ (List.range ((cs.drop (m1 + 1 + 1)).takeWhile isDomainChar).length).reverse := by
        rw [List.mem_reverse, List.mem_range]
        rw [show m1 + 1 + 1 = ll + 1 from by omega]
        exact hdl
      have := hfs k hkmem
      rw [if_pos ⟨hk1, by
        rw [List.getElem?_drop, show m1 + 1 + 1 + k = ll + 1 + k from by omega]
        exact hdot⟩] at this
      rw [show m1 + 1 + 1 = ll + 1 from by omega] at this
      rw [hTL] at this
      split at this
      · omega
      · omega
      rw [if_pos (by
        rw [List.drop_drop, show ll + 1 + (k + 1 + tl) = ll + 1 + k + 1 + tl from by omega]
        exact hba)] at this
      exact Option.noConfusion this

end Privacy

namespace Privacy

theorem emailFacts : MatcherFacts emailMatch := by
  constructor
  case nil => intro w; cases w <;> rfl
  case pos =>
    intro w cs n h
    obtain ⟨ll, k, tl, hn, _⟩ := emailMatch_some h
    omega
  case le =>
    intro w cs n h
    obtain ⟨ll, k, tl, hn, hsh⟩ := emailMatch_some h
    obtain ⟨_, _, _, htl2, _, _, _, _, htld, _⟩ := hsh
    obtain ⟨c, hc, _⟩ := htld (tl - 1) (by omega)
    by_contra hgt
    rw [List.getElem?_eq_none (by omega)] at hc
    exact Option.noConfusion hc
  case bStart =>
    intro w cs n h
    obtain ⟨ll, k, tl, hn, hsh⟩ := emailMatch_some h
    exact hsh.1
  case lastWord =>
    intro w cs n h
    obtain ⟨ll, k, tl, hn, hsh⟩ := emailMatch_some h
    obtain ⟨_, _, _, htl2, _, _, _, _, htld, _⟩ := hsh
    obtain ⟨c, hc, hac⟩ := htld (tl - 1) (by omega)
    refine ⟨c, ?_, alpha_word hac⟩
    rw [show n - 1 = ll + 1 + k + 1 + (tl - 1) from by omega]
    exact hc
  case bAfter =>
    intro w cs n h
    obtain ⟨ll, k, tl, hn, hsh⟩ := emailMatch_some h
    obtain ⟨_, _, _, _, _, _, _, _, _, hba⟩ := hsh
    rw [hn]
    exact hba
  case brack =>
    intro w cs n h i hi hbr
    obtain ⟨ll, k, tl, hn, hsh⟩ := emailMatch_some h
    obtain ⟨_, hll1, hk1, htl2, hloc, hat, hdom, hdot, htld, hba⟩ := hsh
    rcases Nat.lt_or_ge i ll with h1 | h1
    · obtain ⟨c, hc, hlc⟩ := hloc i h1
      rw [hbr] at hc
      injection hc with hc
      rw [← hc] at hlc
      exact absurd hlc (by decide)
    rcases Nat.eq_or_lt_of_le h1 with h2 | h2
    · rw [h2] at hat
      rw [hbr] at hat
      injection hat with hat
      exact absurd hat (by decide)
    rcases Nat.lt_or_ge i (ll + 1 + k + 1) with h3 | h3
    · obtain ⟨c, hc, hdc⟩ := hdom (i - (ll + 1)) (by omega)
      rw [show ll + 1 + (i - (ll + 1)) = i from by omega] at hc
      rw [hbr] at hc
      injection hc with hc
      rw [← hc] at hdc
      exact absurd hdc (by decide)
    · obtain ⟨c, hc, hac⟩ := htld (i - (ll + 1 + k + 1)) (by omega)
      rw [show ll + 1 + k + 1 + (i - (ll + 1 + k + 1)) = i from by omega] at hc
      rw [hbr] at hc
      injection hc with hc
      rw [← hc] at hac
      exact absurd hac (by decide)
  case transfer =>
    intro w cs cs2 n h hagree hend
    obtain ⟨ll, k, tl, hn, hsh⟩ := emailMatch_some h
    obtain ⟨hb, hll1, hk1, htl2, hloc, hat, hdom, hdot, htld, hba⟩ := hsh
    refine @emailMatch_isSome _ _ ll k tl ⟨?_, hll1, hk1, htl2, ?_, ?_, ?_, ?_, ?_, ?_⟩
    · rw [wordAt_congr (hagree 0 (by omega))]
      exact hb
    · intro i hi
      rw [hagree i (by omega)]
      exact hloc i hi
    · rw [hagree ll (by omega)]
      exact hat
    · intro i hi
      rw [hagree (ll + 1 + i) (by omega)]
      exact hdom i hi
    · rw [hagree (ll + 1 + k) (by omega)]
      exact hdot
    · intro i hi
      rw [hagree (ll + 1 + k + 1 + i) (by omega)]
      exact htld i hi
    · rw [show ll + 1 + k + 1 + tl = n from by omega]
      exact hend

end Privacy

namespace Privacy

theorem sepOpts_sound {cs : List Char} {sp : Nat} (h : sp ∈ sepOpts cs) :
    sp = 0 ∨ (sp = 1 ∧ sepAt cs 0) := by
  unfold sepOpts at h
  split at h
  · rename_i c rest
    split at h
    · rename_i hc
      rcases List.mem_cons.mp h with rfl | h2
      · exact Or.inr ⟨rfl, ⟨c, by simp, hc⟩⟩
      · simp at h2
        exact Or.inl h2
    · simp at h
      exact Or.inl h
  · simp at h
    exact Or.inl h

theorem sepOpts_zero (cs : List Char) : 0 ∈ sepOpts cs := by
  unfold sepOpts
  split
  · split <;> simp
  · simp

theorem sepOpts_one {cs : List Char} (h : sepAt cs 0) : 1 ∈ sepOpts cs := by
  obtain ⟨c, hc, hsep⟩ := h
  unfold sepOpts
  cases cs with
  | nil => simp at hc
  | cons c0 rest =>
      simp at hc
      subst hc
      simp [hsep]

theorem openOpts_sound {cs : List Char} {o : Nat} (h : o ∈ openOpts cs) :
    o = 0 ∨ (o = 1 ∧ cs[0]? = some '(') := by
  unfold openOpts at h
  split at h
  · rename_i c rest
    split at h
    · rename_i hc
      subst hc
      rcases List.mem_cons.mp h with rfl | h2
      · exact Or.inr ⟨rfl, by simp⟩
      · simp at h2
        exact Or.inl h2
    · simp at h
      exact Or.inl h
  · simp at h
    exact Or.inl h

theorem openOpts_zero (cs : List Char) : 0 ∈ openOpts cs := by
  unfold openOpts
  split
  · split <;> simp
  · simp

theorem openOpts_one {cs : List Char} (h : cs[0]? = some '(') : 1 ∈ openOpts cs := by
  unfold openOpts
  cases cs with
  | nil => simp at h
  | cons c0 rest =>
      simp at h
      subst h
      simp

theorem closeOpts_sound {cs : List Char} {o : Nat} (h : o ∈ closeOpts cs) :
    o = 0 ∨ (o = 1 ∧ cs[0]? = some ')') := by
  unfold closeOpts at h
  split at h
  · rename_i c rest
    split at h
    · rename_i hc
      subst hc
      rcases List.mem_cons.mp h with rfl | h2
      · exact Or.inr ⟨rfl, by simp⟩
      · simp at h2
        exact Or.inl h2
    · simp at h
      exact Or.inl h
  · simp at h
    exact Or.inl h

theorem closeOpts_zero (cs : List Char) : 0 ∈ closeOpts cs := by
  unfold closeOpts
  split
  · split <;> simp
  · simp

theorem closeOpts_one {cs : List Char} (h : cs[0]? = some ')') : 1 ∈ closeOpts cs := by
  unfold closeOpts
  cases cs with
  | nil => simp at h
  | cons c0 rest =>
      simp at h
      subst h
      simp

theorem plusOpts_sound {cs : List Char} {a : Nat} (h : a ∈ plusOpts cs) : APart cs a := by
  unfold plusOpts at h
  split at h
  · rename_i c0 c1 rest
    split at h
    · rename_i hc
      obtain ⟨rfl, rfl⟩ := hc
      rcases List.mem_append.mp h with h2 | h2
      · obtain ⟨sp, hsp, hval⟩ := List.mem_map.mp h2
        rcases sepOpts_sound hsp with rfl | ⟨rfl, hsep⟩
        · exact Or.inr ⟨by simp, by simp, Or.inl (by omega)⟩
        · refine Or.inr ⟨by simp, by simp, Or.inr ⟨by omega, ?_⟩⟩
          obtain ⟨c, hc0, hsc⟩ := hsep
          exact ⟨c, by simpa using hc0, hsc⟩
      · simp at h2
        exact Or.inl h2
    · simp at h
      exact Or.inl h
  · simp at h
    exact Or.inl h

theorem plusOpts_complete {cs : List Char} {a : Nat} (h : APart cs a) : a ∈ plusOpts cs := by
  rcases h with rfl | ⟨h0, h1, hrest⟩
  · unfold plusOpts
    split
    · split
      · exact List.mem_append.mpr (Or.inr (by simp))
      · simp
    · simp
  · rcases cs with _ | ⟨c0, _ | ⟨c1, rest⟩⟩
    · simp at h0
    · simp at h1
    · simp at h0 h1
      subst h0
      subst h1
      simp only [plusOpts]
      rw [if_pos (by trivial)]
      refine List.mem_append.mpr (Or.inl ?_)
      rcases hrest with rfl | ⟨rfl, hsep⟩
      · exact List.mem_map.mpr ⟨0, sepOpts_zero rest, by omega⟩
      · refine List.mem_map.mpr ⟨1, ?_, by omega⟩
        obtain ⟨c, hc, hsc⟩ := hsep
        exact sepOpts_one ⟨c, by simpa using hc, hsc⟩

end Privacy

namespace Privacy

theorem digitsShape_drop {cs : List Char} {off m : Nat} :
    digitsShape cs off m ↔ digitRun (cs.drop off) m = true := by
  rw [digitRun_iff]
  constructor
  · intro h i hi
    obtain ⟨c, hc, hd⟩ := h i hi
    exact ⟨c, by rw [List.getElem?_drop]; exact hc, hd⟩
  · intro h i hi
    obtain ⟨c, hc, hd⟩ := h i hi
    rw [List.getElem?_drop] at hc
    exact ⟨c, hc, hd⟩

theorem sepAt_drop {cs : List Char} {off i : Nat} :
    sepAt (cs.drop off) i ↔ sepAt cs (off + i) := by
  unfold sepAt
  rw [← List.getElem?_drop]

theorem areaOpts_sound {cs : List Char} {b : Nat} (h : b ∈ areaOpts cs) : BPart cs b := by
  unfold areaOpts at h
  rcases List.mem_append.mp h with h2 | h2
  · obtain ⟨o, ho, hfo⟩ := List.mem_flatMap.mp h2
    split at hfo
    case _ hdr =>
      obtain ⟨cl, hcl, hval⟩ := List.mem_flatMap.mp hfo
      obtain ⟨sp, hsp, hb⟩ := List.mem_map.mp hval
      refine Or.inr ⟨o, cl, sp, hb.symm, ?_, ?_, ?_, ?_⟩
      · rcases openOpts_sound ho with rfl | ⟨rfl, hc⟩
        · exact Or.inl rfl
        · exact Or.inr ⟨rfl, hc⟩
      · exact digitsShape_drop.mpr hdr
      · rcases closeOpts_sound hcl with rfl | ⟨rfl, hc⟩
        · exact Or.inl rfl
        · refine Or.inr ⟨rfl, ?_⟩
          rw [List.getElem?_drop, Nat.add_zero] at hc
          exact hc
      · rcases sepOpts_sound hsp with rfl | ⟨rfl, hc⟩
        · exact Or.inl rfl
        · refine Or.inr ⟨rfl, ?_⟩
          have := sepAt_drop.mp hc
          rw [Nat.add_zero] at this
          exact this
    case _ => simp at hfo
  · simp at h2
    exact Or.inl h2

theorem areaOpts_complete {cs : List Char} {b : Nat} (h : BPart cs b) : b ∈ areaOpts cs := by
  unfold areaOpts
  rcases h with rfl | ⟨o, cl, sp, rfl, ho, hd, hcl, hsp⟩
  · exact List.mem_append.mpr (Or.inr (by simp))
  · refine List.mem_append.mpr (Or.inl ?_)
    refine List.mem_flatMap.mpr ⟨o, ?_, ?_⟩
    · rcases ho with rfl | ⟨rfl, hc⟩
      · exact openOpts_zero cs
      · exact openOpts_one hc
    · rw [if_pos (digitsShape_drop.mp hd)]
      refine List.mem_flatMap.mpr ⟨cl, ?_, ?_⟩
      · rcases hcl with rfl | ⟨rfl, hc⟩
        · exact closeOpts_zero _
        · exact closeOpts_one (by rw [List.getElem?_drop, Nat.add_zero]; exact hc)
      · refine List.mem_map.mpr ⟨sp, ?_, rfl⟩
        rcases hsp with rfl | ⟨rfl, hc⟩
        · exact sepOpts_zero _
        · exact sepOpts_one (sepAt_drop.mpr (by rw [Nat.add_zero]; exact hc))

theorem coreOpts_sound {cs : List Char} {c : Nat} (h : c ∈ coreOpts cs) : CPart cs c := by
  unfold coreOpts at h
  split at h
  case _ hd3 =>
    obtain ⟨sp, hsp, hval⟩ := List.mem_filterMap.mp h
    split at hval
    case _ hd4 =>
      injection hval with hval
      refine ⟨sp, hval.symm, ?_, ?_, ?_⟩
      · rw [digitsShape_drop, List.drop_zero]
        exact hd3
      · rcases sepOpts_sound hsp with rfl | ⟨rfl, hc⟩
        · exact Or.inl rfl
        · refine Or.inr ⟨rfl, ?_⟩
          have := sepAt_drop.mp hc
          rw [Nat.add_zero] at this
          exact this
      · exact digitsShape_drop.mpr hd4
    case _ => exact Option.noConfusion hval
  case _ => simp at h

theorem coreOpts_complete {cs : List Char} {c : Nat} (h : CPart cs c) : c ∈ coreOpts cs := by
  obtain ⟨sp, rfl, hd3, hsp, hd4⟩ := h
  unfold coreOpts
  rw [if_pos (by
    have hz := digitsShape_drop.mp hd3
    rw [List.drop_zero] at hz
    exact hz)]
  refine List.mem_filterMap.mpr ⟨sp, ?_, ?_⟩
  · rcases hsp with rfl | ⟨rfl, hc⟩
    · exact sepOpts_zero _
    · exact sepOpts_one (sepAt_drop.mpr (by rw [Nat.add_zero]; exact hc))
  · rw [if_pos (digitsShape_drop.mp hd4)]

end Privacy

namespace Privacy

theorem phoneMatch_some {w : Bool} {cs : List Char} {n : Nat}
    (h : phoneMatch w cs = some n) :
    ∃ a b c, n = a + b + c ∧ PhoneShape w cs a b c := by
  unfold phoneMatch at h
  split at h
  · exact Option.noConfusion h
  rename_i hb
  obtain ⟨a, ha, h1⟩ := List.exists_of_findSome?_eq_some h
  obtain ⟨b, hbm, h2⟩ := List.exists_of_findSome?_eq_some h1
  obtain ⟨c, hcm, h3⟩ := List.exists_of_findSome?_eq_some h2
  split at h3
  case _ hw =>
    injection h3 with h3
    subst h3
    exact ⟨a, b, c, rfl, hb, plusOpts_sound ha, areaOpts_sound hbm,
      coreOpts_sound hcm, hw⟩
  case _ => exact Option.noConfusion h3

theorem phoneMatch_isSome {w : Bool} {cs : List Char} {a b c : Nat}
    (h : PhoneShape w cs a b c) : (phoneMatch w cs).isSome = true := by
  obtain ⟨hb, hA, hB, hC, hw⟩ := h
  unfold phoneMatch
  rw [if_neg hb]
  cases hfs : (plusOpts cs).findSome? (fun a =>
      (areaOpts (cs.drop a)).findSome? (fun b =>
        (coreOpts (cs.drop (a + b))).findSome? (fun c =>
          if wordAt (cs.drop (a + b + c)) = false then some (a + b + c)
          else none))) with
  | some v => simp [hfs]
  | none =>
      exfalso
      rw [List.findSome?_eq_none_iff] at hfs
      have h1 := hfs a (plusOpts_complete hA)
      have h2 := (List.findSome?_eq_none_iff.mp h1) b (areaOpts_complete hB)
      have h3 := (List.findSome?_eq_none_iff.mp h2) c (coreOpts_complete hC)
      rw [if_pos hw] at h3
      exact Option.noConfusion h3

/-- Every character consumed by a phone match is a digit, a separator,
or one of `+`, `1`, `(`, `)`. -/
theorem phone_chars {w : Bool} {cs : List Char} {a b c : Nat}
    (h : PhoneShape w cs a b c) :
    ∀ i, i < a + b + c → ∃ ch, cs[i]? = some ch ∧
      (ch.isDigit || isSepChar ch || ch = '+' || ch = '1' || ch = '(' || ch = ')') = true := by
  obtain ⟨_, hA, hB, hC, _⟩ := h
  obtain ⟨sp, rfl, hd3, hsp, hd4⟩ := hC
  intro i hi
  rcases Nat.lt_or_ge i a with hia | hia
  · rcases hA with rfl | ⟨h0, h1, hrest⟩
    · omega
    · have ha3 : a ≤ 3 := by rcases hrest with rfl | ⟨rfl, _⟩ <;> omega
      rcases Nat.lt_or_ge i 1 with hi0 | hi0
      · have : i = 0 := by omega
        subst this
        exact ⟨'+', h0, by decide⟩
      rcases Nat.lt_or_ge i 2 with hi1 | hi1
      · have : i = 1 := by omega
        subst this
        exact ⟨'1', h1, by decide⟩
      · have hi2 : i = 2 := by omega
        subst hi2
        rcases hrest with rfl | ⟨rfl, hsep⟩
        · omega
        · obtain ⟨ch, hch, hs⟩ := hsep
          exact ⟨ch, hch, by simp [hs]⟩
  rcases Nat.lt_or_ge i (a + b) with hib | hib
  · rcases hB with rfl | ⟨o, cl, sp2, rfl, ho, hd, hcl, hsp2⟩
    · omega
    · have hj : i - a < o + 3 + cl + sp2 := by omega
      rcases Nat.lt_or_ge (i - a) o with hjo | hjo
      · rcases ho with rfl | ⟨rfl, hc⟩
        · omega
        · refine ⟨'(', ?_, by decide⟩
          rw [List.getElem?_drop] at hc
          rw [show i = a + 0 from by omega]
          exact hc
      rcases Nat.lt_or_ge (i - a) (o + 3) with hjd | hjd
      · obtain ⟨ch, hch, hd'⟩ := hd (i - a - o) (by omega)
        rw [List.getElem?_drop] at hch
        rw [show a + (o + (i - a - o)) = i from by omega] at hch
        exact ⟨ch, hch, by simp [hd']⟩
      rcases Nat.lt_or_ge (i - a) (o + 3 + cl) with hjc | hjc
      · rcases hcl with rfl | ⟨rfl, hc⟩
        · omega
        · rw [List.getElem?_drop] at hc
          rw [show a + (o + 3) = i from by omega] at hc
          exact ⟨')', hc, by decide⟩
      · rcases hsp2 with rfl | ⟨rfl, hc⟩
        · omega
        · obtain ⟨ch, hch, hs⟩ := hc
          rw [List.getElem?_drop] at hch
          rw [show a + (o + 3 + cl) = i from by omega] at hch
          exact ⟨ch, hch, by simp [hs]⟩
  · have hj : i - (a + b) < 3 + sp + 4 := by omega
    rcases Nat.lt_or_ge (i - (a + b)) 3 with hj3 | hj3
    · obtain ⟨ch, hch, hd'⟩ := hd3 (i - (a + b)) (by omega)
      rw [List.getElem?_drop] at hch
      rw [show a + b + (0 + (i - (a + b))) = i from by omega] at hch
      exact ⟨ch, hch, by simp [hd']⟩
    rcases Nat.lt_or_ge (i - (a + b)) (3 + sp) with hjs | hjs
    · rcases hsp with rfl | ⟨rfl, hc⟩
      · omega
      · obtain ⟨ch, hch, hs⟩ := hc
        rw [List.getElem?_drop] at hch
        rw [show a + b + 3 = i from by omega] at hch
        exact ⟨ch, hch, by simp [hs]⟩
    · obtain ⟨ch, hch, hd'⟩ := hd4 (i - (a + b) - (3 + sp)) (by omega)
      rw [List.getElem?_drop] at hch
      rw [show a + b + (3 + sp + (i - (a + b) - (3 + sp))) = i from by omega] at hch
      exact ⟨ch, hch, by simp [hd']⟩

end Privacy

namespace Privacy

theorem phoneFacts : MatcherFacts phoneMatch := by
  constructor
  case nil => intro w; cases w <;> rfl
  case pos =>
    intro w cs n h
    obtain ⟨a, b, c, hn, hsh⟩ := phoneMatch_some h
    obtain ⟨_, _, _, ⟨sp, rfl, _⟩, _⟩ := hsh
    omega
  case le =>
    intro w cs n h
    obtain ⟨a, b, c, hn, hsh⟩ := phoneMatch_some h
    obtain ⟨_, _, _, ⟨sp, rfl, _, _, hd4⟩, _⟩ := hsh
    obtain ⟨ch, hch, _⟩ := hd4 3 (by omega)
    rw [List.getElem?_drop] at hch
    by_contra hgt
    rw [List.getElem?_eq_none (by omega)] at hch
    exact Option.noConfusion hch
  case bStart =>
    intro w cs n h
    obtain ⟨a, b, c, hn, hsh⟩ := phoneMatch_some h
    exact hsh.1
  case lastWord =>
    intro w cs n h
    obtain ⟨a, b, c, hn, hsh⟩ := phoneMatch_some h
    obtain ⟨_, _, _, ⟨sp, rfl, _, _, hd4⟩, _⟩ := hsh
    obtain ⟨ch, hch, hdg⟩ := hd4 3 (by omega)
    rw [List.getElem?_drop] at hch
    refine ⟨ch, ?_, digit_word hdg⟩
    rw [show n - 1 = a + b + (3 + sp + 3) from by omega]
    exact hch
  case bAfter =>
    intro w cs n h
    obtain ⟨a, b, c, hn, hsh⟩ := phoneMatch_some h
    rw [hn]
    exact hsh.2.2.2.2
  case brack =>
    intro w cs n h i hi hbr
    obtain ⟨a, b, c, hn, hsh⟩ := phoneMatch_some h
    obtain ⟨ch, hch, hcl⟩ := phone_chars hsh i (by omega)
    rw [hbr] at hch
    injection hch with hch
    rw [← hch] at hcl
    exact absurd hcl (by decide)
  case transfer =>
    intro w cs cs2 n h hagree hend
    obtain ⟨a, b, c, hn, hsh⟩ := phoneMatch_some h
    obtain ⟨hb, hA, hB, hC, hw⟩ := hsh
    obtain ⟨sp, rfl, hd3, hsp, hd4⟩ := hC
    have hn7 : 7 ≤ n := by omega
    refine phoneMatch_isSome (a := a) (b := b) (c := 3 + sp + 4) ⟨?_, ?_, ?_, ?_, ?_⟩
    · rw [wordAt_congr (hagree 0 (by omega))]
      exact hb
    · rcases hA with rfl | ⟨h0, h1, hrest⟩
      · exact Or.inl rfl
      · have ha3 : a ≤ 3 := by rcases hrest with rfl | ⟨rfl, _⟩ <;> omega
        refine Or.inr ⟨by rw [hagree 0 (by omega)]; exact h0,
          by rw [hagree 1 (by omega)]; exact h1, ?_⟩
        rcases hrest with rfl | ⟨rfl, hsep⟩
        · exact Or.inl rfl
        · refine Or.inr ⟨rfl, ?_⟩
          obtain ⟨ch, hch, hs⟩ := hsep
          exact ⟨ch, by rw [hagree 2 (by omega)]; exact hch, hs⟩
    · rcases hB with rfl | ⟨o, cl, sp2, rfl, ho, hd, hcl, hsp2⟩
      · exact Or.inl rfl
      · have ho1 : o ≤ 1 := by rcases ho with rfl | ⟨rfl, _⟩ <;> omega
        have hcl1 : cl ≤ 1 := by rcases hcl with rfl | ⟨rfl, _⟩ <;> omega
        have hsp1 : sp2 ≤ 1 := by rcases hsp2 with rfl | ⟨rfl, _⟩ <;> omega
        refine Or.inr ⟨o, cl, sp2, rfl, ?_, ?_, ?_, ?_⟩
        · rcases ho with rfl | ⟨rfl, hc⟩
          · exact Or.inl rfl
          · refine Or.inr ⟨rfl, ?_⟩
            rw [List.getElem?_drop] at hc ⊢
            rw [hagree (a + 0) (by omega)]
            exact hc
        · intro i hi2
          obtain ⟨ch, hch, hdg⟩ := hd i hi2
          rw [List.getElem?_drop] at hch ⊢
          refine ⟨ch, ?_, hdg⟩
          rw [hagree (a + (o + i)) (by omega)]
          exact hch
        · rcases hcl with rfl | ⟨rfl, hc⟩
          · exact Or.inl rfl
          · refine Or.inr ⟨rfl, ?_⟩
            rw [List.getElem?_drop] at hc ⊢
            rw [hagree (a + (o + 3)) (by omega)]
            exact hc
        · rcases hsp2 with rfl | ⟨rfl, hc⟩
          · exact Or.inl rfl
          · refine Or.inr ⟨rfl, ?_⟩
            obtain ⟨ch, hch, hs⟩ := hc
            rw [List.getElem?_drop] at hch
            refine ⟨ch, ?_, hs⟩
            rw [List.getElem?_drop, hagree (a + (o + 3 + cl)) (by omega)]
            exact hch
    · refine ⟨sp, rfl, ?_, ?_, ?_⟩
      · intro i hi2
        obtain ⟨ch, hch, hdg⟩ := hd3 i hi2
        rw [List.getElem?_drop] at hch ⊢
        refine ⟨ch, ?_, hdg⟩
        rw [hagree (a + b + (0 + i)) (by omega)]
        exact hch
      · rcases hsp with rfl | ⟨rfl, hc⟩
        · exact Or.inl rfl
        · refine Or.inr ⟨rfl, ?_⟩
          obtain ⟨ch, hch, hs⟩ := hc
          rw [List.getElem?_drop] at hch
          refine ⟨ch, ?_, hs⟩
          rw [List.getElem?_drop, hagree (a + b + 3) (by omega)]
          exact hch
      · intro i hi2
        obtain ⟨ch, hch, hdg⟩ := hd4 i hi2
        rw [List.getElem?_drop] at hch ⊢
        refine ⟨ch, ?_, hdg⟩
        rw [hagree (a + b + (3 + sp + i)) (by omega)]
        exact hch
    · rw [show a + b + (3 + sp + 4) = n from by omega]
      exact hend

end Privacy

namespace Privacy

theorem allClean_drop {Mp : Bool → List Char → Option Nat} :
    ∀ {cs : List Char} {w : Bool}, AllClean Mp w cs →
      ∀ n, AllClean Mp (lastWordness w (cs.take n)) (cs.drop n) := by
  intro cs
  induction cs with
  | nil =>
      intro w h n
      rcases n with _ | n
      · exact h
      · exact h
  | cons c cs ih =>
      intro w h n
      rcases n with _ | n
      · exact h
      · rw [List.take_succ_cons, List.drop_succ_cons, lastWordness_cons]
        exact ih h.2 n

theorem allClean_retarget {Mp : Bool → List Char → Option Nat} {w1 w2 : Bool}
    {cs : List Char} (F : MatcherFacts Mp) (h : AllClean Mp w1 cs)
    (hw : wordAt cs = false) (hw2 : w2 = false) : AllClean Mp w2 cs := by
  cases cs with
  | nil => exact F.nil w2
  | cons c cs =>
      refine ⟨?_, h.2⟩
      cases hm : Mp w2 (c :: cs) with
      | none => rfl
      | some n =>
          have := F.bStart hm
          rw [hw2] at this
          rw [wordAt_eq_getElem] at hw
          simp at hw
          rw [wordAt_eq_getElem] at this
          simp [hw] at this

theorem scanFuel_chain_self {M : Bool → List Char → Option Nat}
    (FM : MatcherFacts M) :
    ∀ (fuel : Nat) (w : Bool) (cs : List Char), cs.length ≤ fuel →
      Chain M M w cs (scanFuel M fuel w cs) := by
  intro fuel
  induction fuel with
  | zero =>
      intro w cs h
      have : cs = [] := List.length_eq_zero.mp (by omega)
      subst this
      exact Chain.nil
  | succ fuel ih =>
      intro w cs h
      cases cs with
      | nil => exact Chain.nil
      | cons c rest =>
          unfold scanFuel
          cases hm : M w (c :: rest) with
          | none =>
              exact Chain.keep hm hm (ih (isWordChar c) rest (by simpa using Nat.le_of_succ_le_succ h))
          | some n =>
              have hpos := FM.pos hm
              have hle := FM.le hm
              refine Chain.repl hm hpos (ih _ _ ?_)
              have : ((c :: rest).drop n).length = (c :: rest).length - n := List.length_drop ..
              simp at h ⊢
              omega

theorem chain_mono {M Mp : Bool → List Char → Option Nat} :
    ∀ {w : Bool} {cs : List Char} {ps : List Piece},
      Chain M M w cs ps → AllClean Mp w cs → Chain M Mp w cs ps := by
  intro w cs ps h
  induction h with
  | nil => intro _; exact Chain.nil
  | keep hM _ _ ih =>
      intro hc
      exact Chain.keep hM hc.1 (ih hc.2)
  | repl hM hpos _ ih =>
      intro hc
      exact Chain.repl hM hpos (ih (allClean_drop hc _))

theorem chain_break {M Mp : Bool → List Char → Option Nat} {tok : List Char} :
    ∀ {w : Bool} {cs : List Char} {ps : List Piece}, Chain M Mp w cs ps →
      ∃ k, k ≤ cs.length ∧
        (∀ i, i < k → (render tok ps)[i]? = cs[i]?) ∧
        ((cs.drop k = [] ∧ (render tok ps).drop k = []) ∨
          (∃ n t, M (lastWordness w (cs.take k)) (cs.drop k) = some n ∧
            (render tok ps).drop k = tok ++ t)) := by
  intro w cs ps h
  induction h with
  | nil =>
      exact ⟨0, by simp, by omega, Or.inl ⟨rfl, rfl⟩⟩
  | @keep w c cs ps hM hMp hch ih =>
      obtain ⟨k, hk, hag, hrest⟩ := ih
      refine ⟨k + 1, by simpa using Nat.succ_le_succ hk, ?_, ?_⟩
      · intro i hi
        rcases i with _ | i
        · simp [render]
        · simpa [render] using hag i (by omega)
      · rw [List.take_succ_cons, List.drop_succ_cons, lastWordness_cons]
        have hr : (render tok (Piece.keep c :: ps)).drop (k + 1) = (render tok ps).drop k := by
          rfl
        rcases hrest with ⟨h1, h2⟩ | ⟨n, t, hm, ht⟩
        · exact Or.inl ⟨h1, by rw [hr]; exact h2⟩
        · exact Or.inr ⟨n, t, hm, by rw [hr]; exact ht⟩
  | @repl w cs n ps hM hpos hch ih =>
      refine ⟨0, by omega, by omega, Or.inr ⟨n, render tok ps, ?_, rfl⟩⟩
      simpa using hM

end Privacy

namespace Privacy

theorem allClean_append {Mp : Bool → List Char → Option Nat} :
    ∀ {a : List Char} {b : List Char} {w : Bool},
      (∀ (w' : Bool) (i : Nat), i < a.length → Mp w' (a.drop i ++ b) = none) →
      AllClean Mp (lastWordness w a) b → AllClean Mp w (a ++ b) := by
  intro a
  induction a with
  | nil =>
      intro b w _ hb
      simpa [lastWordness] using hb
  | cons c a ih =>
      intro b w ha hb
      refine ⟨?_, ?_⟩
      · simpa using ha w 0 (by simp)
      · refine ih (fun w' i hi => by simpa using ha w' (i + 1) (by simpa using Nat.succ_lt_succ hi)) ?_
        rw [← lastWordness_cons]
        exact hb

theorem chain_head_agree {M Mp : Bool → List Char → Option Nat} {tok : List Char}
    (hTokHead : tok[0]? = some '[')
    {w : Bool} {cs : List Char} {ps : List Piece} (h : Chain M Mp w cs ps) :
    wordAt (render tok ps) = false ∨ (render tok ps)[0]? = cs[0]? := by
  cases h with
  | nil => exact Or.inl rfl
  | keep _ _ _ => exact Or.inr (by simp [render])
  | @repl w2 cs2 n2 ps2 hm2 hpos2 hch2 =>
      left
      show wordAt (tok ++ render tok ps2) = false
      cases tok with
      | nil => simp at hTokHead
      | cons t ts =>
          simp at hTokHead
          subst hTokHead
          rfl
  
theorem meta_clean {M Mp : Bool → List Char → Option Nat} {tok : List Char}
    (FM : MatcherFacts M) (FMp : MatcherFacts Mp)
    (hTokHead : tok[0]? = some '[')
    (hTokLast : ∃ c, tok.getLast? = some c ∧ isWordChar c = false)
    (hInert : ∀ (w : Bool) (i : Nat) (cont : List Char), i < tok.length →
      Mp w (tok.drop i ++ cont) = none) :
    ∀ {w : Bool} {cs : List Char} {ps : List Piece}, Chain M Mp w cs ps →
      AllClean Mp w (render tok ps) := by
  intro w cs ps h
  induction h with
  | nil => exact FMp.nil _
  | @keep w c cs ps hM hMp hch ih =>
      refine ⟨?_, ih⟩
      cases hcand : Mp w (c :: render tok ps) with
      | none => rfl
      | some n =>
          exfalso
          have hcand' : Mp w (render tok (Piece.keep c :: ps)) = some n := hcand
          obtain ⟨k, hkle, hag, hrest⟩ :=
            @chain_break M Mp tok _ _ _ (Chain.keep hM hMp hch)
          have hpos := FMp.pos hcand'
          have hle := FMp.le hcand'
          rcases Nat.lt_trichotomy n k with hnk | hnk | hnk
          · have hagree : ∀ i, i < n → (c :: cs)[i]? = (render tok (Piece.keep c :: ps))[i]? := by
              intro i hi
              exact (hag i (by omega)).symm
            have hword : wordAt ((c :: cs).drop n) = false := by
              have hba := FMp.bAfter hcand'
              rw [wordAt_drop] at hba ⊢
              rw [← hag n (by omega)]
              exact hba
            have := FMp.transfer hcand' hagree hword
            rw [hMp] at this
            simp at this
          · subst hnk
            have hagree : ∀ i, i < n → (c :: cs)[i]? = (render tok (Piece.keep c :: ps))[i]? := by
              intro i hi
              exact (hag i hi).symm
            have hword : wordAt ((c :: cs).drop n) = false := by
              rcases hrest with ⟨h1, _⟩ | ⟨n', t, hm, ht⟩
              · rw [h1]
                rfl
              · obtain ⟨ch, hch, hchw⟩ := FMp.lastWord hcand'
                have hcs : (c :: cs)[n - 1]? = some ch := by
                  rw [← hag (n - 1) (by omega)]
                  exact hch
                have hlw : lastWordness w ((c :: cs).take n) = true := by
                  rw [lastWordness_take w hcs (by omega), hchw]
                have hbs := FM.bStart hm
                rw [hlw] at hbs
                cases hq : wordAt ((c :: cs).drop n) with
                | false => rfl
                | true => exact absurd hq.symm hbs
            have := FMp.transfer hcand' hagree hword
            rw [hMp] at this
            simp at this
          · rcases hrest with ⟨_, h2⟩ | ⟨n', t, hm, ht⟩
            · rw [List.drop_eq_nil_iff] at h2
              omega
            · have hk : (render tok (Piece.keep c :: ps))[k]? = some '[' := by
                have h0 : (render tok (Piece.keep c :: ps)).drop k = tok ++ t := ht
                have := List.getElem?_drop (render tok (Piece.keep c :: ps)) k 0
                rw [h0, Nat.add_zero] at this
                rw [← this]
                cases tok with
                | nil => simp at hTokHead
                | cons a ts =>
                    simp at hTokHead
                    subst hTokHead
                    simp
              exact absurd hk (FMp.brack hcand' k hnk)
  | @repl w cs n ps hM hpos hch ih =>
      show AllClean Mp w (tok ++ render tok ps)
      have hwR : wordAt (render tok ps) = false := by
        rcases chain_head_agree hTokHead hch with h1 | h1
        · exact h1
        · have hba := FM.bAfter hM
          rw [wordAt_eq_getElem, h1]
          rw [wordAt_eq_getElem] at hba
          exact hba
      have hclean : AllClean Mp false (render tok ps) :=
        allClean_retarget FMp ih hwR rfl
      refine allClean_append (fun w' i hi => hInert w' i _ hi) ?_
      have hlw : lastWordness w tok = false := by
        obtain ⟨cz, hcz, hwz⟩ := hTokLast
        simp [lastWordness, hcz, hwz]
      rw [hlw]
      exact hclean

end Privacy

namespace Privacy

theorem scan_clean_render {M : Bool → List Char → Option Nat} {tok : List Char} :
    ∀ (fuel : Nat) (w : Bool) (cs : List Char), cs.length ≤ fuel →
      AllClean M w cs → render tok (scanFuel M fuel w cs) = cs := by
  intro fuel
  induction fuel with
  | zero =>
      intro w cs h _
      have : cs = [] := List.length_eq_zero.mp (by omega)
      subst this
      rfl
  | succ fuel ih =>
      intro w cs h hc
      cases cs with
      | nil => rfl
      | cons c rest =>
          unfold scanFuel
          rw [hc.1]
          show c :: render tok (scanFuel M fuel (isWordChar c) rest) = c :: rest
          rw [ih (isWordChar c) rest (by simpa using Nat.le_of_succ_le_succ h) hc.2]

theorem takeWhile_all_append {p : Char → Bool} {ls : List Char} {d : Char}
    {cont : List Char} (h : ∀ c ∈ ls, p c = true) (hd : p d = false) :
    (ls ++ d :: cont).takeWhile p = ls := by
  induction ls with
  | nil =>
      simp only [List.nil_append]
      rw [List.takeWhile_cons_of_neg (by simp [hd])]
  | cons c ls ih =>
      rw [List.cons_append, List.takeWhile_cons_of_pos (h c (by simp))]
      rw [ih (fun c hc => h c (by simp [hc]))]

theorem email_bracket_none (w : Bool) (rest : List Char) :
    emailMatch w ('[' :: rest) = none := by
  unfold emailMatch
  split
  · rfl
  · rw [List.takeWhile_cons_of_neg (by decide)]
    rfl

theorem email_letters_none (w : Bool) (ls cont : List Char)
    (h : ∀ c ∈ ls, c.isAlpha = true) :
    emailMatch w (ls ++ ']' :: cont) = none := by
  have ht : (ls ++ ']' :: cont).takeWhile isLocalChar = ls :=
    takeWhile_all_append (fun c hc => by simp [isLocalChar, h c hc]) (by decide)
  unfold emailMatch
  split
  · rfl
  · rw [ht]
    split
    · rfl
    · rw [List.drop_left]
      rfl

theorem phone_head_none (w : Bool) (c : Char) (rest : List Char)
    (hd : c.isDigit = false) (hp : ¬ c = '+') (ho : ¬ c = '(') :
    phoneMatch w (c :: rest) = none := by
  have hdr : digitRun (c :: rest) 3 = false := by
    cases hq : digitRun (c :: rest) 3 with
    | false => rfl
    | true =>
        obtain ⟨c0, hc0, hdg⟩ := digitRun_iff.mp hq 0 (by omega)
        simp at hc0
        subst hc0
        rw [hdg] at hd
        exact Bool.noConfusion hd
  have hplus : plusOpts (c :: rest) = [0] := by
    cases rest with
    | nil => rfl
    | cons c1 r =>
        simp only [plusOpts]
        rw [if_neg (fun hand => hp hand.1)]
  have hopen : openOpts (c :: rest) = [0] := by
    simp only [openOpts]
    rw [if_neg ho]
  have harea : areaOpts (c :: rest) = [0] := by
    unfold areaOpts
    rw [hopen]
    simp [hdr]
  have hcore : coreOpts (c :: rest) = [] := by
    unfold coreOpts
    simp [hdr]
  unfold phoneMatch
  split
  · rfl
  · rw [hplus]
    simp [List.findSome?, harea, hcore]

end Privacy

namespace Privacy

theorem emailTok_email_inert : ∀ (w : Bool) (i : Nat) (cont : List Char),
    i < emailTok.length → emailMatch w (emailTok.drop i ++ cont) = none := by
  intro w i cont hi
  have hi7 : i < 7 := by simpa [emailTok] using hi
  interval_cases i
  · exact email_bracket_none w _
  · exact email_letters_none w ['E', 'M', 'A', 'I', 'L'] cont (by decide)
  · exact email_letters_none w ['M', 'A', 'I', 'L'] cont (by decide)
  · exact email_letters_none w ['A', 'I', 'L'] cont (by decide)
  · exact email_letters_none w ['I', 'L'] cont (by decide)
  · exact email_letters_none w ['L'] cont (by decide)
  · exact email_letters_none w [] cont (by decide)

theorem phoneTok_email_inert : ∀ (w : Bool) (i : Nat) (cont : List Char),
    i < phoneTok.length → emailMatch w (phoneTok.drop i ++ cont) = none := by
  intro w i cont hi
  have hi7 : i < 7 := by simpa [phoneTok] using hi
  interval_cases i
  · exact email_bracket_none w _
  · exact email_letters_none w ['P', 'H', 'O', 'N', 'E'] cont (by decide)
  · exact email_letters_none w ['H', 'O', 'N', 'E'] cont (by decide)
  · exact email_letters_none w ['O', 'N', 'E'] cont (by decide)
  · exact email_letters_none w ['N', 'E'] cont (by decide)
  · exact email_letters_none w ['E'] cont (by decide)
  · exact email_letters_none w [] cont (by decide)

theorem phoneTok_phone_inert : ∀ (w : Bool) (i : Nat) (cont : List Char),
    i < phoneTok.length → phoneMatch w (phoneTok.drop i ++ cont) = none := by
  intro w i cont hi
  have hi7 : i < 7 := by simpa [phoneTok] using hi
  interval_cases i
  · exact phone_head_none w '[' ('P' :: 'H' :: 'O' :: 'N' :: 'E' :: ']' :: cont)
      (by decide) (by decide) (by decide)
  · exact phone_head_none w 'P' ('H' :: 'O' :: 'N' :: 'E' :: ']' :: cont)
      (by decide) (by decide) (by decide)
  · exact phone_head_none w 'H' ('O' :: 'N' :: 'E' :: ']' :: cont)
      (by decide) (by decide) (by decide)
  · exact phone_head_none w 'O' ('N' :: 'E' :: ']' :: cont)
      (by decide) (by decide) (by decide)
  · exact phone_head_none w 'N' ('E' :: ']' :: cont)
      (by decide) (by decide) (by decide)
  · exact phone_head_none w 'E' (']' :: cont)
      (by decide) (by decide) (by decide)
  · exact phone_head_none w ']' cont (by decide) (by decide) (by decide)

theorem emailPass_clean (cs : List Char) : AllClean emailMatch false (emailPass cs) :=
  meta_clean emailFacts emailFacts (by decide) ⟨']', by decide, by decide⟩
    emailTok_email_inert
    (scanFuel_chain_self emailFacts cs.length false cs (le_refl _))

theorem phonePass_clean_phone (cs : List Char) : AllClean phoneMatch false (phonePass cs) :=
  meta_clean phoneFacts phoneFacts (by decide) ⟨']', by decide, by decide⟩
    phoneTok_phone_inert
    (scanFuel_chain_self phoneFacts cs.length false cs (le_refl _))

theorem phonePass_clean_email (cs : List Char)
    (hcs : AllClean emailMatch false cs) :
    AllClean emailMatch false (phonePass cs) :=
  meta_clean phoneFacts emailFacts (by decide) ⟨']', by decide, by decide⟩
    phoneTok_email_inert
    (chain_mono (scanFuel_chain_self phoneFacts cs.length false cs (le_refl _)) hcs)

theorem emailPass_id {cs : List Char} (h : AllClean emailMatch false cs) :
    emailPass cs = cs :=
  scan_clean_render cs.length false cs (le_refl _) h

theorem phonePass_id {cs : List Char} (h : AllClean phoneMatch false cs) :
    phonePass cs = cs :=
  scan_clean_render cs.length false cs (le_refl _) h

end Privacy

/-- C9: `scrubPlanText` is idempotent — applying the email-then-phone
redaction a second time leaves the already-scrubbed string unchanged,
for every input string. -/
theorem c9_scrub_idempotent (s : String) :
    Privacy.scrubPlanText (Privacy.scrubPlanText s) = Privacy.scrubPlanText s := by
  have h1 : Privacy.AllClean Privacy.emailMatch false (Privacy.emailPass s.data) :=
    Privacy.emailPass_clean s.data
  have h2 : Privacy.AllClean Privacy.emailMatch false
      (Privacy.phonePass (Privacy.emailPass s.data)) :=
    Privacy.phonePass_clean_email _ h1
  have h3 : Privacy.AllClean Privacy.phoneMatch false
      (Privacy.phonePass (Privacy.emailPass s.data)) :=
    Privacy.phonePass_clean_phone _
  show (⟨Privacy.phonePass (Privacy.emailPass
      (Privacy.phonePass (Privacy.emailPass s.data)))⟩ : String) =
    ⟨Privacy.phonePass (Privacy.emailPass s.data)⟩
  rw [Privacy.emailPass_id h2, Privacy.phonePass_id h3]
